import Mathlib

/-!
Shallow embedding of the dependency-graph and change-impact core of the
`project-ai-polit-cli` repository, together with proofs about it.

The embedding covers:
* the unified-diff change extractor (`GitDiffAnalyzer.getChangedLines`),
* the diff-to-block mapper (`GitDiffAnalyzer.findCodeBlockAtLine`,
  `locateAffectedBlocks`) over an explicit syntax-tree model,
* the staged-change pipeline (`getStagedFiles`, `analyzeStagedChanges`),
* the dependency tracer (`DependencyTracer.resolveImportPath`,
  `analyzeDependencies`, `analyzeDependents`, `extractExports`,
  `analyzeImpact`),
* the task hydrator's marker-to-declaration mapping
  (`TaskHydrator.findFollowingCodeBlock`),
* the relevance scorer (`ContextFinder.calculateMatchScore`).

Filesystem and parser I/O are modelled by explicit data (a project is a list
of files carrying their syntactic data); Node's `path` library is modelled by
component-wise path arithmetic on absolute paths.
-/

namespace ProjectAI

/-! ## String and path model -/

/-- Does `pat` occur as a contiguous run inside `s`? -/
def charsInclude (s pat : List Char) : Bool :=
  match s with
  | [] => pat.isEmpty
  | _ :: rest => pat.isPrefixOf s || charsInclude rest pat

/-- Substring test: the model of JavaScript `String.prototype.includes`. -/
def strIncludes (s pat : String) : Bool := charsInclude s.data pat.data

/-- Model of JavaScript `String.prototype.startsWith`. -/
def strStartsWith (s pat : String) : Bool := pat.data.isPrefixOf s.data

/-- Drop the first `n` characters: JavaScript `s.substring(n)`. -/
def strDrop (s : String) (n : Nat) : String := String.mk (s.data.drop n)

/-- Character count of a string. -/
def strLength (s : String) : Nat := s.data.length

/-- Model of JavaScript `String.prototype.toLowerCase`. -/
def strToLower (s : String) : String := String.mk (s.data.map Char.toLower)

/-- Split a character list at every occurrence of `sep`. -/
def splitOnChar (sep : Char) : List Char -> List (List Char)
  | [] => [[]]
  | c :: rest =>
    let r := splitOnChar sep rest
    if c = sep then [] :: r
    else
      match r with
      | [] => [[c]]
      | h :: t => (c :: h) :: t

/-- Split a path string on `/`, dropping empty components. -/
def splitPath (s : String) : List String :=
  ((splitOnChar '/' s.data).map String.mk).filter (fun c => c ≠ "")

/-- Resolve `.` and `..` components, clamping `..` at the root: the
normalisation performed by Node `path.resolve` / `path.join`. -/
def normComponents (cs : List String) : List String :=
  cs.foldl (fun acc c =>
    if c = "." then acc else if c = ".." then acc.dropLast else acc ++ [c]) []

/-- Render an absolute path from its components. -/
def joinAbs (cs : List String) : String := "/" ++ String.intercalate "/" cs

/-- Model of Node `path.resolve dir spec` where `dir` is absolute. -/
def pathResolve (dir spec : String) : String :=
  if strStartsWith spec "/" then joinAbs (normComponents (splitPath spec))
  else joinAbs (normComponents (splitPath dir ++ splitPath spec))

/-- Model of Node `path.dirname` on an absolute path. -/
def pathDirname (p : String) : String := joinAbs ((splitPath p).dropLast)

/-- Model of Node `path.basename`. -/
def pathBasename (p : String) : String := ((splitPath p).getLast?).getD ""

/-- Model of Node `path.join root rel` as used on a root and relative path. -/
def pathJoin (a b : String) : String :=
  joinAbs (normComponents (splitPath a ++ splitPath b))

/-- Model of Node `path.isAbsolute`. -/
def pathIsAbsolute (p : String) : Bool := strStartsWith p "/"

/-- Model of Node `path.relative root p` for the case that `p` lies under
`root`; other cases return `p` unchanged (in this project the result is only
a display field, and every use has `p` under `root`). -/
def pathRelative (root p : String) : String :=
  if (root ++ "/").data.isPrefixOf p.data then strDrop p (strLength root + 1) else p

/-- Model of Node `path.extname`: the final dot-suffix of the base name;
empty when the base name has no dot or only a leading dot. -/
def pathExtname (p : String) : String :=
  let base := (pathBasename p).data
  let ext := base.reverse.takeWhile (fun c => c ≠ '.')
  if base.length ≤ ext.length + 1 then ""
  else "." ++ String.mk ext.reverse

/-- `GitDiffAnalyzer.isSourceFile`: source-code extensions only, test/spec
files excluded by file-name pattern. -/
def isSourceFile (filePath : String) : Bool :=
  [".ts", ".tsx", ".js", ".jsx"].contains (pathExtname filePath)
    && !(strIncludes filePath ".test.") && !(strIncludes filePath ".spec.")

/-! ## Version-control change extractor (`GitDiffAnalyzer.getChangedLines`) -/

/-- The `type` field of a source `ChangedLine`.  (The parser only ever emits
`add` and `delete`; `modify` exists in the source union type.) -/
inductive ChangeType where
  | add
  | delete
  | modify
deriving Repr, DecidableEq

/-- A changed line extracted from a unified diff (source `ChangedLine`). -/
structure ChangedLine where
  lineNumber : Nat
  type : ChangeType
  content : String
deriving Repr, DecidableEq

/-- Read a maximal nonempty run of decimal digits: the `\d+` pieces of the
hunk-header regular expression. -/
def readDigits (cs : List Char) : Option (Nat × List Char) :=
  let ds := cs.takeWhile Char.isDigit
  if ds.isEmpty then none
  else some (ds.foldl (fun n c => 10 * n + (c.toNat - '0'.toNat)) 0,
             cs.dropWhile Char.isDigit)

/-- The optional `(?:,\d+)?` count group of the hunk-header pattern. -/
def skipOptCount (cs : List Char) : Option (List Char) :=
  match cs with
  | ',' :: rest => (readDigits rest).map (fun r => r.2)
  | _ => some cs

/-- Match the source regular expression
`^@@ -\d+(?:,\d+)? \+(\d+)(?:,(\d+))? @@` against a diff line, returning the
first capture group (the new-file start line). -/
def parseHunkHeader (line : String) : Option Nat := do
  match line.data with
  | '@' :: '@' :: ' ' :: '-' :: rest =>
    let (_, rest) ← readDigits rest
    let rest ← skipOptCount rest
    match rest with
    | ' ' :: '+' :: rest =>
      let (n, rest) ← readDigits rest
      let rest ← skipOptCount rest
      match rest with
      | ' ' :: '@' :: '@' :: _ => some n
      | _ => none
    | _ => none
  | _ => none

/-- One step of the line loop of `GitDiffAnalyzer.getChangedLines`.  The
state is the current line cursor together with the changed lines collected
so far. -/
def diffStep (st : Nat × List ChangedLine) (line : String) :
    Nat × List ChangedLine :=
  match parseHunkHeader line with
  | some n => (n, st.2)
  | none =>
    if strStartsWith line "+" && !strStartsWith line "+++" then
      (st.1 + 1, st.2 ++ [⟨st.1, .add, strDrop line 1⟩])
    else if strStartsWith line "-" && !strStartsWith line "---" then
      (st.1, st.2 ++ [⟨st.1, .delete, strDrop line 1⟩])
    else if strStartsWith line " " then
      (st.1 + 1, st.2)
    else st

/-- `GitDiffAnalyzer.getChangedLines`, applied to the lines of the
`git diff --cached -U0` output for one file (the model receives the output
already split on newlines). -/
def getChangedLines (diffLines : List String) : List ChangedLine :=
  (diffLines.foldl diffStep (0, [])).2


/-! ## Syntax-tree model (the Source Model Provider)

A parsed file is a tree of nodes.  Each node carries the data the analyzers
read through the `ts-morph` API: its syntax kind, `getName()`, source range,
`getText()`, and, where the source consults them, the arrow-initializer flag
and enclosing-statement text of a variable declaration, the parent class
name of a method, and the signature string (the latter combines parser and
type-checker output and is therefore carried as node data). -/

inductive NodeKind where
  | functionDeclaration
  | variableDeclaration
  | methodDeclaration
  | classDeclaration
  | interfaceDeclaration
  | arrowFunction
  | returnStatement
  | jsxElement
  | other
deriving Repr, DecidableEq

structure NodeData where
  kind : NodeKind := .other
  name : Option String := none
  startPos : Nat := 0
  endPos : Nat := 0
  text : String := ""
  initializerIsArrow : Bool := false
  stmtText : String := ""
  className : Option String := none
  signature : String := ""
deriving Repr, DecidableEq

inductive STree where
  | node (data : NodeData) (children : List STree)

def STree.data : STree → NodeData
  | .node d _ => d

def STree.children : STree → List STree
  | .node _ cs => cs

/-- A parsed source file: full text plus the root (SourceFile) node. -/
structure FileTree where
  text : String
  root : STree

/-- The position computation at the head of `findCodeBlockAtLine`: the
absolute character offset of the start of 1-based `lineNumber`, obtained by
summing the lengths of the preceding lines plus one newline each. -/
def posOfLine (text : String) (lineNumber : Nat) : Nat :=
  let lines := splitOnChar '\n' text.data
  ((lines.take (lineNumber - 1)).map (fun l => l.length + 1)).sum

/-- Model of `sourceFile.getLineAndColumnAtPos(pos).line`: one plus the
number of newlines before `pos`. -/
def lineOfPos (text : String) (pos : Nat) : Nat :=
  1 + ((text.data.take pos).filter (fun c => c = '\n')).length

/-- Does the node's source range contain the position? -/
def containsPos (t : STree) (pos : Nat) : Bool :=
  t.data.startPos ≤ pos && pos < t.data.endPos

mutual

/-- The chain of nodes from `t` down to the deepest descendant whose range
contains `pos`: reversed, this is exactly the `getDescendantAtPos` result
followed by the `getParent` walk of `findCodeBlockAtLine`. -/
def descendChain (t : STree) (pos : Nat) : List NodeData :=
  match t with
  | .node d cs => d :: descendChainList cs pos

/-- Find the first child containing `pos` and descend into it. -/
def descendChainList (ts : List STree) (pos : Nat) : List NodeData :=
  match ts with
  | [] => []
  | c :: rest =>
    if containsPos c pos then descendChain c pos else descendChainList rest pos

end

/-- `GitDiffAnalyzer.isReactComponent`: a plain substring test on the
declaration text. -/
def isReactComponent (code : String) : Bool :=
  strIncludes code "return (" && (strIncludes code "<" || strIncludes code "jsx")

/-- The `type` field of a source `CodeBlock` (`cls`/`iface` render as the
source strings `class`/`interface`). -/
inductive BlockType where
  | function
  | method
  | cls
  | iface
  | component
deriving Repr, DecidableEq

def typeToString : BlockType → String
  | .function => "function"
  | .method => "method"
  | .cls => "class"
  | .iface => "interface"
  | .component => "component"

/-- A source `CodeBlock`. -/
structure CodeBlock where
  type : BlockType
  name : String
  startLine : Nat
  endLine : Nat
  signature : String
  fullCode : String
  changedLineNumbers : List Nat
deriving Repr, DecidableEq

/-- The kind dispatch of the ancestor walk in
`GitDiffAnalyzer.findCodeBlockAtLine`: build a `CodeBlock` when the node is
one of the accepted declaration kinds, `none` to keep walking up. -/
def blockOfNode (text : String) (lineNumber : Nat) (d : NodeData) :
    Option CodeBlock :=
  match d.kind with
  | .functionDeclaration =>
    some { type := if isReactComponent d.text then .component else .function
           name := d.name.getD "anonymous"
           startLine := lineOfPos text d.startPos
           endLine := lineOfPos text d.endPos
           signature := d.signature
           fullCode := d.text
           changedLineNumbers := [lineNumber] }
  | .variableDeclaration =>
    if d.initializerIsArrow then
      some { type := if isReactComponent d.stmtText then .component else .function
             name := d.name.getD ""
             startLine := lineOfPos text d.startPos
             endLine := lineOfPos text d.endPos
             signature := d.signature
             fullCode := d.stmtText
             changedLineNumbers := [lineNumber] }
    else none
  | .methodDeclaration =>
    some { type := .method
           name := (d.className.getD "Unknown") ++ "." ++ (d.name.getD "")
           startLine := lineOfPos text d.startPos
           endLine := lineOfPos text d.endPos
           signature := d.signature
           fullCode := d.text
           changedLineNumbers := [lineNumber] }
  | .classDeclaration =>
    some { type := .cls
           name := d.name.getD "anonymous"
           startLine := lineOfPos text d.startPos
           endLine := lineOfPos text d.endPos
           signature := "class " ++ d.name.getD "anonymous"
           fullCode := d.text
           changedLineNumbers := [lineNumber] }
  | .interfaceDeclaration =>
    some { type := .iface
           name := d.name.getD ""
           startLine := lineOfPos text d.startPos
           endLine := lineOfPos text d.endPos
           signature := "interface " ++ d.name.getD ""
           fullCode := d.text
           changedLineNumbers := [lineNumber] }
  | _ => none

/-- First accepted declaration along a node chain. -/
def firstBlock (text : String) (lineNumber : Nat) :
    List NodeData → Option CodeBlock
  | [] => none
  | d :: rest =>
    match blockOfNode text lineNumber d with
    | some b => some b
    | none => firstBlock text lineNumber rest

/-- `GitDiffAnalyzer.findCodeBlockAtLine`: locate the deepest node at the
line's offset, then walk the ancestor chain outward to the nearest accepted
declaration. -/
def findCodeBlockAtLine (file : FileTree) (lineNumber : Nat) :
    Option CodeBlock :=
  let pos := posOfLine file.text lineNumber
  if containsPos file.root pos then
    firstBlock file.text lineNumber ((descendChain file.root pos).reverse)
  else none

/-- The deduplication key `` `${block.type}-${block.name}-${block.startLine}` ``. -/
def blockKey (b : CodeBlock) : String :=
  typeToString b.type ++ "-" ++ b.name ++ "-" ++ Nat.repr b.startLine

/-- The `blocks.find(...)` branch of `locateAffectedBlocks`: append the
changed line (if new) to the first already-recorded block with the same
`(type, name, startLine)` identity. -/
def addLineToFirst (blocks : List CodeBlock) (b : CodeBlock) (l : Nat) :
    List CodeBlock :=
  match blocks with
  | [] => []
  | b' :: rest =>
    if b'.type = b.type ∧ b'.name = b.name ∧ b'.startLine = b.startLine then
      (if l ∈ b'.changedLineNumbers then b'
       else { b' with changedLineNumbers := b'.changedLineNumbers ++ [l] }) :: rest
    else b' :: addLineToFirst rest b l

/-- One iteration of the changed-line loop of `locateAffectedBlocks`; the
state is the block list and the processed-key set. -/
def locateStep (file : FileTree) (st : List CodeBlock × List String)
    (cl : ChangedLine) : List CodeBlock × List String :=
  match findCodeBlockAtLine file cl.lineNumber with
  | none => st
  | some block =>
    let key := blockKey block
    if st.2.contains key then (addLineToFirst st.1 block cl.lineNumber, st.2)
    else (st.1 ++ [block], key :: st.2)

/-- `GitDiffAnalyzer.locateAffectedBlocks` on a parsed file (the
file-existence guard lives in the caller model, where a missing file yields
no tree and hence no blocks). -/
def locateAffectedBlocks (file : FileTree) (changedLines : List ChangedLine) :
    List CodeBlock :=
  let relevantLines := changedLines.filter
    (fun l => l.type == ChangeType.add || l.type == ChangeType.modify)
  (relevantLines.foldl (locateStep file) ([], [])).1

/-! ## Staged-change pipeline (`GitDiffAnalyzer.analyzeStagedChanges`) -/

inductive FileStatus where
  | added
  | modified
  | deleted
deriving Repr, DecidableEq

structure StagedFile where
  path : String
  status : FileStatus
deriving Repr, DecidableEq

/-- Parse one line of `git diff --cached --name-status` output,
`<letter>\t<path>`: only `A`, `M` and `D` are kept; every other status
letter (renames, copies, ...) is skipped by the source `continue`. -/
def parseStagedLine (line : String) : Option StagedFile :=
  let parts := (splitOnChar '\t' line.data).map String.mk
  let status := parts.headD ""
  let filePath := (parts.drop 1).headD ""
  if status = "A" then some ⟨filePath, .added⟩
  else if status = "M" then some ⟨filePath, .modified⟩
  else if status = "D" then some ⟨filePath, .deleted⟩
  else none

/-- `GitDiffAnalyzer.getStagedFiles` on the lines of the command output
(`stdout.trim().split('\n')`). -/
def getStagedFiles (outputLines : List String) : List StagedFile :=
  outputLines.filterMap parseStagedLine

structure FileChange where
  filePath : String
  relativePath : String
  status : FileStatus
  changedLines : List ChangedLine
  affectedBlocks : List CodeBlock
deriving Repr, DecidableEq

structure DiffSummary where
  added : Nat
  modified : Nat
  deleted : Nat
deriving Repr, DecidableEq

structure DiffAnalysis where
  totalFiles : Nat
  fileChanges : List FileChange
  summary : DiffSummary
deriving Repr, DecidableEq

/-- `GitDiffAnalyzer.analyzeFileChange`.  The version-control and parser
collaborators are explicit: `diffOf` gives the lines of the `-U0` diff for a
relative path, `treeOf` the parsed tree of an absolute path (`none` when the
file does not exist on disk). -/
def analyzeFileChange (diffOf : String → List String)
    (treeOf : String → Option FileTree)
    (relativePath : String) (status : FileStatus) (absolutePath : String) :
    Option FileChange :=
  match status with
  | .deleted => some ⟨absolutePath, relativePath, .deleted, [], []⟩
  | _ =>
    let changedLines := getChangedLines (diffOf relativePath)
    if changedLines.isEmpty then none
    else
      let affectedBlocks :=
        match treeOf absolutePath with
        | some t => locateAffectedBlocks t changedLines
        | none => []
      some ⟨absolutePath, relativePath, status, changedLines, affectedBlocks⟩

def bumpSummary (s : DiffSummary) : FileStatus → DiffSummary
  | .added => { s with added := s.added + 1 }
  | .modified => { s with modified := s.modified + 1 }
  | .deleted => { s with deleted := s.deleted + 1 }

/-- One iteration of the staged-file loop of `analyzeStagedChanges`. -/
def stagedStep (root : String) (diffOf : String → List String)
    (treeOf : String → Option FileTree)
    (st : List FileChange × DiffSummary) (file : StagedFile) :
    List FileChange × DiffSummary :=
  let absolutePath := pathJoin root file.path
  if !isSourceFile file.path then st
  else
    match analyzeFileChange diffOf treeOf file.path file.status absolutePath with
    | none => st
    | some fc => (st.1 ++ [fc], bumpSummary st.2 file.status)

/-- `GitDiffAnalyzer.analyzeStagedChanges` over the staged-file listing. -/
def analyzeStagedChanges (root : String) (diffOf : String → List String)
    (treeOf : String → Option FileTree) (outputLines : List String) :
    DiffAnalysis :=
  let stagedFiles := getStagedFiles outputLines
  if stagedFiles.isEmpty then ⟨0, [], ⟨0, 0, 0⟩⟩
  else
    let r := stagedFiles.foldl (stagedStep root diffOf treeOf) ([], ⟨0, 0, 0⟩)
    ⟨r.1.length, r.1, r.2⟩


/-! ## Dependency tracer (`DependencyTracer`) -/

/-- An import declaration as read through `ts-morph`:
`getModuleSpecifierValue()`, `getDefaultImport()` and the names of
`getNamedImports()` (for `import { a as b }`, `getName()` is `a`). -/
structure ImportDecl where
  moduleSpecifier : String
  defaultImport : Option String := none
  namedImports : List String := []
deriving Repr, DecidableEq

/-- A source file as seen by the tracer: its canonical absolute path, import
declarations, raw content (read by the type heuristic) and the declaration
lists walked by `extractExports`, each carrying name and `isExported`. -/
structure SrcFile where
  path : String
  imports : List ImportDecl := []
  content : String := ""
  functions : List (Option String × Bool) := []
  classes : List (Option String × Bool) := []
  interfaces : List (String × Bool) := []
  typeAliases : List (String × Bool) := []
  variableStatements : List (Bool × List String) := []
  hasDefaultExport : Bool := false
deriving Repr, DecidableEq

/-- `project.addSourceFileAtPath` / `fs.readFileSync`: look a file up by
path in the project (the model of the filesystem). -/
def lookupFile (proj : List SrcFile) (p : String) : Option SrcFile :=
  proj.find? (fun f => f.path == p)

/-- `fs.existsSync` / `fse.pathExists` on the modelled filesystem. -/
def existsFile (proj : List SrcFile) (p : String) : Bool :=
  (lookupFile proj p).isSome

/-- The fixed suffix probe list of `resolveImportPath`. -/
def possibleExtensions : List String :=
  ["", ".ts", ".tsx", ".js", ".jsx", "/index.ts", "/index.tsx", "/index.js",
   "/index.jsx"]

/-- `DependencyTracer.resolveImportPath`: rewrite a leading `@/` alias to
`src/` under the project root, then probe the suffix list against the
filesystem; the first existing path wins, otherwise `none`. -/
def resolveImportPath (proj : List SrcFile) (rootPath : String)
    (currentDir : String) (moduleSpecifier : String) : Option String :=
  let sd :=
    if strStartsWith moduleSpecifier "@/" then
      ("src/" ++ strDrop moduleSpecifier 2, rootPath)
    else (moduleSpecifier, currentDir)
  (possibleExtensions.map (fun ext => pathResolve sd.2 (sd.1 ++ ext))).find?
    (existsFile proj)

/-- Model of JavaScript `String.prototype.endsWith`. -/
def strEndsWith (s pat : String) : Bool :=
  pat.data.reverse.isPrefixOf s.data.reverse

/-- The regular-expression test `/use[A-Z]/`: somewhere in the list, `use`
followed by an upper-case letter. -/
def hasUseUpper : List Char → Bool
  | [] => false
  | c :: rest =>
    (match c, rest with
     | 'u', 's' :: 'e' :: d :: _ => d.isUpper
     | _, _ => false) || hasUseUpper rest

/-- The `type` classification of a `DependencyInfo`. -/
inductive DepType where
  | component
  | hook
  | util
  | service
  | type
  | other
deriving Repr, DecidableEq

/-- `DependencyTracer.determineFileType`: the cascading string heuristics.
(The base name is lower-cased before the `/use[A-Z]/` test, so the `hook`
branch can in fact never fire — modelled exactly as written.) -/
def determineFileType (proj : List SrcFile) (filePath : String) : DepType :=
  let fileName := strToLower (pathBasename filePath)
  let content := ((lookupFile proj filePath).map SrcFile.content).getD ""
  if strStartsWith fileName "use" && hasUseUpper fileName.data then .hook
  else if strEndsWith filePath ".tsx" || strEndsWith filePath ".jsx" then
    .component
  else if strIncludes content "return (" && strIncludes content "<"
      && strIncludes content "/>" then .component
  else if strIncludes fileName "service" || strIncludes fileName "api"
      || strIncludes fileName "client" then .service
  else if strIncludes fileName "type" || strEndsWith fileName ".d.ts" then
    .type
  else if strIncludes fileName "util" || strIncludes fileName "helper"
      || strIncludes fileName "tool" then .util
  else .other

structure DependencyInfo where
  filePath : String
  relativePath : String
  type : DepType
  imports : List String
deriving Repr, DecidableEq

/-- Result of the instrumented forward walk: collected records, the visited
set after the call, and a log of `(path, depth)` for every visit (every
execution of the body past the depth and visited guards). -/
abbrev TraceRes := List DependencyInfo × List String × List (String × Nat)

/-- The loop over `sourceFile.getImportDeclarations()` inside
`analyzeDependencies`, threading the (shared, in the source instance-field)
visited set.  `recur` is the recursive call at `depth + 1`; `doRecur` is the
source guard `depth < maxDepth`. -/
def processImports (proj : List SrcFile) (rootPath : String)
    (recur : SrcFile → List String → TraceRes) (doRecur : Bool)
    (fileDir : String) (imps : List ImportDecl) (visited : List String) :
    TraceRes :=
  match imps with
  | [] => ([], visited, [])
  | imp :: rest =>
    let spec := imp.moduleSpecifier
    if !strStartsWith spec "." && !strStartsWith spec "/" then
      processImports proj rootPath recur doRecur fileDir rest visited
    else
      match resolveImportPath proj rootPath fileDir spec with
      | none => processImports proj rootPath recur doRecur fileDir rest visited
      | some resolvedPath =>
        if !strIncludes resolvedPath rootPath then
          processImports proj rootPath recur doRecur fileDir rest visited
        else
          let node : DependencyInfo :=
            { filePath := resolvedPath
              relativePath := pathRelative rootPath resolvedPath
              type := determineFileType proj resolvedPath
              imports := imp.defaultImport.toList ++ imp.namedImports }
          let sub : TraceRes :=
            if doRecur then
              match lookupFile proj resolvedPath with
              | some f => recur f visited
              | none => ([], visited, [])
            else ([], visited, [])
          let restRes :=
            processImports proj rootPath recur doRecur fileDir rest sub.2.1
          (node :: (sub.1 ++ restRes.1), restRes.2.1, sub.2.2 ++ restRes.2.2)

/-- `DependencyTracer.analyzeDependencies`, instrumented with the visit log.
The recursion is driven by an explicit `fuel` argument; the source
terminates because `depth` grows towards `maxDepth`, so top-level calls pass
`fuel = maxDepth + 1` and the depth guard keeps the `0` case unreachable. -/
def analyzeDependenciesAux (proj : List SrcFile) (rootPath : String) :
    Nat → SrcFile → Nat → Nat → List String → TraceRes
  | 0, _, _, _, visited => ([], visited, [])
  | fuel + 1, sf, depth, maxDepth, visited =>
    if depth > maxDepth then ([], visited, [])
    else if visited.contains sf.path then ([], visited, [])
    else
      let r := processImports proj rootPath
        (fun f v =>
          analyzeDependenciesAux proj rootPath fuel f (depth + 1) maxDepth v)
        (decide (depth < maxDepth)) (pathDirname sf.path) sf.imports
        (sf.path :: visited)
      (r.1, r.2.1, (sf.path, depth) :: r.2.2)

/-- `analyzeDependencies(sourceFile)` as called by `analyzeImpact`: default
`depth = 0`, `maxDepth = 3`, freshly cleared visited set. -/
def analyzeDependencies (proj : List SrcFile) (rootPath : String)
    (sf : SrcFile) : List DependencyInfo :=
  (analyzeDependenciesAux proj rootPath 4 sf 0 3 []).1

structure DependentInfo where
  filePath : String
  relativePath : String
  importedItems : List String
  usageCount : Nat
deriving Repr, DecidableEq

/-- The File Inventory collaborator of `analyzeDependents`: the globby scan
`src/**/*.{ts,tsx,js,jsx}` under the root with the source's ignore list. -/
def isScannedFile (rootPath : String) (p : String) : Bool :=
  strStartsWith p (rootPath ++ "/src/")
    && [".ts", ".tsx", ".js", ".jsx"].contains (pathExtname p)
    && !strEndsWith p ".d.ts" && !strIncludes p ".spec."
    && !strIncludes p ".test." && !strIncludes p "node_modules/"
    && !strIncludes p "dist/" && !strIncludes p "build/"

/-- The inner loop of `analyzeDependents` over one dependent candidate's
own import declarations: accumulate the items (default import text and
named-import names) of every import resolving to the target, incrementing
`usageCount` once per item. -/
def collectImported (proj : List SrcFile) (rootPath targetPath : String)
    (fileDir : String) (imps : List ImportDecl) : List String × Nat :=
  match imps with
  | [] => ([], 0)
  | imp :: rest =>
    let r := collectImported proj rootPath targetPath fileDir rest
    if resolveImportPath proj rootPath fileDir imp.moduleSpecifier
        == some targetPath then
      let items := imp.defaultImport.toList ++ imp.namedImports
      (items ++ r.1, items.length + r.2)
    else r

/-- `DependencyTracer.analyzeDependents`: scan every in-scope project file
except the target, recording a `DependentInfo` whenever at least one of its
imports resolves to the target with at least one item. -/
def analyzeDependents (proj : List SrcFile) (rootPath targetPath : String) :
    List DependentInfo :=
  ((proj.map SrcFile.path).filter (isScannedFile rootPath)).filterMap
    (fun file =>
      if file = targetPath then none
      else
        match lookupFile proj file with
        | none => none
        | some sf =>
          let r := collectImported proj rootPath targetPath
            (pathDirname file) sf.imports
          if r.1.isEmpty then none
          else some { filePath := file
                      relativePath := pathRelative rootPath file
                      importedItems := r.1
                      usageCount := r.2 })

/-- The `type` of a source `ExportedItem`. -/
inductive ExportType where
  | function
  | cls
  | iface
  | type
  | const
  | default
deriving Repr, DecidableEq

structure ExportedItem where
  name : String
  type : ExportType
  isUsedExternally : Bool
deriving Repr, DecidableEq

/-- `DependencyTracer.extractExports`: every builder stores
`isUsedExternally := false` (the source comment reads "updated later"). -/
def extractExports (sf : SrcFile) : List ExportedItem :=
  ((sf.functions.filter (fun f => f.2)).map
    (fun f => ⟨f.1.getD "anonymous", .function, false⟩))
  ++ ((sf.classes.filter (fun c => c.2)).map
    (fun c => ⟨c.1.getD "anonymous", .cls, false⟩))
  ++ ((sf.interfaces.filter (fun i => i.2)).map
    (fun i => ⟨i.1, .iface, false⟩))
  ++ ((sf.typeAliases.filter (fun t => t.2)).map
    (fun t => ⟨t.1, .type, false⟩))
  ++ (((sf.variableStatements.filter (fun v => v.1)).map
    (fun v => v.2.map (fun n => (⟨n, .const, false⟩ : ExportedItem)))).flatten)
  ++ (if sf.hasDefaultExport then [⟨"default", .default, false⟩] else [])

structure ImpactAnalysis where
  targetFile : String
  targetRelativePath : String
  exports : List ExportedItem
  dependencies : List DependencyInfo
  dependents : List DependentInfo
deriving Repr, DecidableEq

/-- `DependencyTracer.analyzeImpact`: absolute-path normalisation and
existence check, then the three analyses.  (No later pass touches
`exports[i].isUsedExternally`.) -/
def analyzeImpact (proj : List SrcFile) (rootPath : String)
    (filePath : String) : Except String ImpactAnalysis :=
  let absolutePath :=
    if pathIsAbsolute filePath then filePath else pathJoin rootPath filePath
  match lookupFile proj absolutePath with
  | none => .error ("文件不存在: " ++ filePath)
  | some sourceFile =>
    .ok { targetFile := absolutePath
          targetRelativePath := pathRelative rootPath absolutePath
          exports := extractExports sourceFile
          dependencies := analyzeDependencies proj rootPath sourceFile
          dependents := analyzeDependents proj rootPath absolutePath }


/-! ## Task hydrator (`TaskHydrator.findFollowingCodeBlock`) -/

mutual

/-- Preorder `forEachDescendant` traversal paired with each node's parent. -/
def descWP (parent : NodeData) (t : STree) : List (NodeData × NodeData) :=
  match t with
  | .node d cs => (d, parent) :: descWPList d cs

def descWPList (parent : NodeData) : List STree → List (NodeData × NodeData)
  | [] => []
  | c :: rest => descWP parent c ++ descWPList parent rest

end

/-- `sourceFile.forEachDescendant` visit order: every proper descendant of
the source-file root, preorder, with its parent node. -/
def descendantsWithParent (t : STree) : List (NodeData × NodeData) :=
  descWPList t.data t.children

/-- The `codeBlock.type` union of the hydrator (`cls` renders as the source
string `class`). -/
inductive HBlockType where
  | function
  | method
  | arrow
  | cls
deriving Repr, DecidableEq

structure HBlock where
  type : HBlockType
  name : Option String
  code : String
  startLine : Nat
  endLine : Nat
deriving Repr, DecidableEq

/-- The kind dispatch of `findFollowingCodeBlock`: accepted node kinds and
their block names.  An arrow function is accepted whether or not it is bound
to a variable; it gets a name only when its direct parent is a variable
declaration. -/
def hBlockTypeOf (d parent : NodeData) : Option (HBlockType × Option String) :=
  match d.kind with
  | .functionDeclaration => some (.function, d.name)
  | .methodDeclaration => some (.method, d.name)
  | .arrowFunction =>
    some (.arrow,
      if parent.kind = .variableDeclaration then parent.name else none)
  | .classDeclaration => some (.cls, d.name)
  | _ => none

/-- One `forEachDescendant` step of `findFollowingCodeBlock`: the state is
the best result so far together with `minDistance` (`none` models the
initial `Infinity`).  The distance test is strict, so the first node (in
traversal order) at the minimal distance is kept. -/
def ffcbStep (text : String) (commentLine : Nat)
    (st : Option HBlock × Option Nat) (dp : NodeData × NodeData) :
    Option HBlock × Option Nat :=
  let startLine := lineOfPos text dp.1.startPos
  let better :=
    match st.2 with
    | none => true
    | some m => startLine - commentLine < m
  if startLine > commentLine && better then
    match hBlockTypeOf dp.1 dp.2 with
    | some tn =>
      (some { type := tn.1, name := tn.2, code := dp.1.text
              startLine := startLine, endLine := lineOfPos text dp.1.endPos },
       some (startLine - commentLine))
    | none => st
  else st

/-- `TaskHydrator.findFollowingCodeBlock`: walk every descendant and keep
the accepted node starting after `commentLine` with minimal line
distance. -/
def findFollowingCodeBlock (file : FileTree) (commentLine : Nat) :
    Option HBlock :=
  ((descendantsWithParent file.root).foldl (ffcbStep file.text commentLine)
    (none, none)).1

/-! ## Relevance scorer (`ContextFinder.calculateMatchScore`) -/

/-- The slice of a scanner `FileAnalysis` read by the scorer: paths,
exported names, top-level function names and interface names (the latter two
optional, matching the `name?.` accesses of the source). -/
structure FileAnalysis where
  filePath : String
  relativePath : String
  exports : List String := []
  functions : List (Option String) := []
  interfaces : List (Option String) := []
deriving Repr, DecidableEq

/-- One keyword iteration of `calculateMatchScore`: file-name tier (10) or
else path tier (5), plus 8 per matching exported name, 6 per matching
function name and 6 per matching interface name; every match also pushes the
keyword onto `matchedKeywords`. -/
def scoreStep (file : FileAnalysis) (st : Nat × List String)
    (keyword : String) : Nat × List String :=
  let fileNameLower := strToLower (pathBasename file.filePath)
  let filePathLower := strToLower file.relativePath
  let nameScore :=
    if strIncludes fileNameLower keyword then 10
    else if strIncludes filePathLower keyword then 5
    else 0
  let nameMatch : List String :=
    if strIncludes fileNameLower keyword then [keyword]
    else if strIncludes filePathLower keyword then [keyword]
    else []
  let expMatches :=
    (file.exports.filter (fun e => strIncludes (strToLower e) keyword)).length
  let fnMatches :=
    (file.functions.filter (fun f =>
      match f with
      | some n => strIncludes (strToLower n) keyword
      | none => false)).length
  let ifaceMatches :=
    (file.interfaces.filter (fun i =>
      match i with
      | some n => strIncludes (strToLower n) keyword
      | none => false)).length
  (st.1 + nameScore + 8 * expMatches + 6 * fnMatches + 6 * ifaceMatches,
   st.2 ++ nameMatch ++ List.replicate expMatches keyword
     ++ List.replicate fnMatches keyword
     ++ List.replicate ifaceMatches keyword)

/-- `ContextFinder.calculateMatchScore`: the additive score over all
keywords, and the matched keywords deduplicated as by `[...new Set(...)]`. -/
def calculateMatchScore (file : FileAnalysis) (keywords : List String) :
    Nat × List String :=
  let r := keywords.foldl (scoreStep file) (0, [])
  (r.1, r.2.eraseDups)


/-! ## Helper lemmas -/

lemma parseHunkHeader_none_of_head {line : String} {c : Char} {tl : List Char}
    (hd : line.data = c :: tl) (hc : c ≠ '@') : parseHunkHeader line = none := by
  unfold parseHunkHeader
  rw [hd]
  split
  · next h => rw [List.cons.injEq] at h; exact absurd h.1 hc
  · rfl

lemma strStartsWith_head {line : String} {p : String} {c : Char}
    (hp : p.data = [c]) (h : strStartsWith line p = true) :
    ∃ tl, line.data = c :: tl := by
  unfold strStartsWith at h
  rw [hp] at h
  cases hd : line.data with
  | nil => rw [hd] at h; simp [List.isPrefixOf] at h
  | cons a tl =>
    rw [hd] at h
    simp [List.isPrefixOf] at h
    exact ⟨tl, by rw [h]⟩


/-- Failing input for C1: `b.ts` exports `foo`; `a.ts` imports `foo`. -/
def c1FileB : SrcFile := { path := "/p/src/b.ts", functions := [(some "foo", true)] }

def c1FileA : SrcFile :=
  { path := "/p/src/a.ts", imports := [{ moduleSpecifier := "./b", namedImports := ["foo"] }] }

def c1Proj : List SrcFile := [c1FileA, c1FileB]

/-- Counterexample project for C2: `a.ts` imports `c.ts`, which imports
`b.ts`; nobody imports `b.ts` directly except `c.ts`. -/
def c2FileA : SrcFile :=
  { path := "/p/src/a.ts", imports := [{ moduleSpecifier := "./c", namedImports := ["g"] }] }

def c2FileC : SrcFile :=
  { path := "/p/src/c.ts", imports := [{ moduleSpecifier := "./b", namedImports := ["foo"] }] }

def c2FileB : SrcFile := { path := "/p/src/b.ts" }

def c2Proj : List SrcFile := [c2FileA, c2FileB, c2FileC]

/-- Witness project for C2: one direct import edge `a.ts → b.ts`. -/
def c2wFileB : SrcFile := { path := "/q/src/b.ts", functions := [(some "foo", true)] }

def c2wFileA : SrcFile :=
  { path := "/q/src/a.ts", imports := [{ moduleSpecifier := "./b", namedImports := ["foo"] }] }

def c2wProj : List SrcFile := [c2wFileA, c2wFileB]

/-- Counterexample project for C8: the dependent imports the same exported
name twice under two aliases. -/
def c8Target : SrcFile := { path := "/p/src/t.ts", functions := [(some "a", true)] }

def c8Dep : SrcFile :=
  { path := "/p/src/d.ts",
    imports := [{ moduleSpecifier := "./t", namedImports := ["a", "a"] }] }

def c8Proj : List SrcFile := [c8Dep, c8Target]

/-! ## Claims -/

/-- C4: Parsing a unified diff containing the hunk header
`@@ -10,0 +10,3 @@` followed by three lines beginning with `+` yields
exactly the changed line numbers 10, 11, 12; more generally the line cursor
is reset by each hunk header to the new-file start line, advances on added
and context lines, and does not advance on deleted lines. -/
theorem claim_C4 :
    (getChangedLines ["@@ -10,0 +10,3 @@", "+a", "+b", "+c"]
      = [⟨10, .add, "a"⟩, ⟨11, .add, "b"⟩, ⟨12, .add, "c"⟩])
    ∧ (∀ st : Nat × List ChangedLine, ∀ line n, parseHunkHeader line = some n →
        diffStep st line = (n, st.2))
    ∧ (∀ st : Nat × List ChangedLine, ∀ line, strStartsWith line "+" = true →
        strStartsWith line "+++" = false →
        diffStep st line = (st.1 + 1, st.2 ++ [⟨st.1, .add, strDrop line 1⟩]))
    ∧ (∀ st : Nat × List ChangedLine, ∀ line, strStartsWith line "-" = true →
        strStartsWith line "---" = false →
        diffStep st line = (st.1, st.2 ++ [⟨st.1, .delete, strDrop line 1⟩]))
    ∧ (∀ st : Nat × List ChangedLine, ∀ line, strStartsWith line " " = true →
        diffStep st line = (st.1 + 1, st.2)) := by
  refine ⟨by decide, ?_, ?_, ?_, ?_⟩
  · intro st line n h
    simp [diffStep, h]
  · intro st line h1 h2
    obtain ⟨tl, hd⟩ := strStartsWith_head (c := '+') (by decide) h1
    rw [diffStep, parseHunkHeader_none_of_head hd (by decide), h1, h2]
    simp
  · intro st line h1 h2
    obtain ⟨tl, hd⟩ := strStartsWith_head (c := '-') (by decide) h1
    have hplus : strStartsWith line "+" = false := by
      simp [strStartsWith, hd, List.isPrefixOf]
    rw [diffStep, parseHunkHeader_none_of_head hd (by decide), hplus, h1, h2]
    simp
  · intro st line h1
    obtain ⟨tl, hd⟩ := strStartsWith_head (c := ' ') (by decide) h1
    have hplus : strStartsWith line "+" = false := by
      simp [strStartsWith, hd, List.isPrefixOf]
    have hminus : strStartsWith line "-" = false := by
      simp [strStartsWith, hd, List.isPrefixOf]
    rw [diffStep, parseHunkHeader_none_of_head hd (by decide), hplus, hminus, h1]
    simp

/-- Witness for C4: the cursor rules applied at concrete diff lines. -/
theorem claim_C4_witness :
    diffStep (9, []) "@@ -1,0 +42,2 @@" = (42, [])
    ∧ diffStep (5, []) "+x" = (6, [⟨5, .add, "x"⟩])
    ∧ diffStep (7, []) "-y" = (7, [⟨7, .delete, "y"⟩])
    ∧ diffStep (3, []) " z" = (4, []) :=
  ⟨claim_C4.2.1 (9, []) "@@ -1,0 +42,2 @@" 42 (by decide),
   claim_C4.2.2.1 (5, []) "+x" (by decide) (by decide),
   claim_C4.2.2.2.1 (7, []) "-y" (by decide) (by decide),
   claim_C4.2.2.2.2 (3, []) " z" (by decide)⟩


/-- C1 (code-bug evidence): `extractExports` initialises `isUsedExternally`
to `false` ("updated later", says the source comment), but `analyzeImpact`
never reconciles it against the dependent scan: every export of every result
carries `false`.  At the concrete failing input, the dependent `a.ts`
pulls in the export `foo` of `b.ts`, yet `foo` is reported as not used
externally. -/
theorem claim_C1 :
    ((analyzeImpact c1Proj "/p" "/p/src/b.ts").toOption = some
      { targetFile := "/p/src/b.ts", targetRelativePath := "src/b.ts",
        exports := [⟨"foo", .function, false⟩], dependencies := [],
        dependents := [⟨"/p/src/a.ts", "src/a.ts", ["foo"], 1⟩] })
    ∧ (∀ sf : SrcFile,
        (extractExports sf).all (fun e => !e.isUsedExternally) = true) := by
  refine ⟨by decide, ?_⟩
  intro sf
  simp only [extractExports, List.all_append, List.all_eq_true, Bool.and_eq_true]
  refine ⟨⟨⟨⟨⟨?_, ?_⟩, ?_⟩, ?_⟩, ?_⟩, ?_⟩ <;>
    first
    | (intro e he
       simp only [List.mem_map, List.mem_filter] at he
       obtain ⟨x, _, rfl⟩ := he
       rfl)
    | (intro e he
       simp only [List.mem_flatten, List.mem_map, List.mem_filter] at he
       obtain ⟨l, ⟨x, _, rfl⟩, hel⟩ := he
       simp only [List.mem_map] at hel
       obtain ⟨n, _, rfl⟩ := hel
       rfl)
    | (split <;> simp)

/-- Every import edge that passes the local/resolved/root checks is recorded
in the result of `processImports`, whatever happens around it. -/
lemma processImports_mem_filePath {proj : List SrcFile} {root : String}
    {recur : SrcFile → List String → TraceRes} {doRecur : Bool} {fileDir : String}
    {imps : List ImportDecl} {imp : ImportDecl} {rp : String}
    (himp : imp ∈ imps)
    (hlocal : (strStartsWith imp.moduleSpecifier "."
      || strStartsWith imp.moduleSpecifier "/") = true)
    (hres : resolveImportPath proj root fileDir imp.moduleSpecifier = some rp)
    (hroot : strIncludes rp root = true) :
    ∀ visited, rp ∈ (processImports proj root recur doRecur fileDir imps visited).1.map
      (fun d => d.filePath) := by
  induction imps with
  | nil => cases himp
  | cons a rest ih =>
    intro visited
    rcases List.mem_cons.mp himp with rfl | hmem
    · have h1 : (!strStartsWith imp.moduleSpecifier "."
          && !strStartsWith imp.moduleSpecifier "/") = false := by
        cases hx : strStartsWith imp.moduleSpecifier "." <;>
          cases hy : strStartsWith imp.moduleSpecifier "/" <;> simp_all
      rw [processImports]
      simp only [h1, Bool.false_eq_true, if_false, hres, hroot]
      simp
    · rw [processImports]
      split
      · exact ih hmem _
      · split
        · exact ih hmem _
        · split
          · exact ih hmem _
          · simp only [List.map_cons, List.map_append, List.mem_cons, List.mem_append]
            right; right
            exact ih hmem _

/-- A direct, locally-resolved import edge of `A` shows up in
`analyzeDependencies proj root A`. -/
lemma analyzeDependencies_mem {proj : List SrcFile} {root : String} {A : SrcFile}
    {imp : ImportDecl} {rp : String}
    (himp : imp ∈ A.imports)
    (hlocal : (strStartsWith imp.moduleSpecifier "."
      || strStartsWith imp.moduleSpecifier "/") = true)
    (hres : resolveImportPath proj root (pathDirname A.path)
      imp.moduleSpecifier = some rp)
    (hroot : strIncludes rp root = true) :
    rp ∈ (analyzeDependencies proj root A).map (fun d => d.filePath) := by
  unfold analyzeDependencies
  have h4 : (4 : Nat) = 3 + 1 := rfl
  rw [h4, analyzeDependenciesAux]
  rw [if_neg (by decide : ¬ ((0:Nat) > 3))]
  rw [if_neg (by simp : ¬ (List.contains ([] : List String) A.path = true))]
  exact processImports_mem_filePath himp hlocal hres hroot [A.path]

/-- `usageCount` accumulated by `collectImported` is always the length of
the accumulated `importedItems`. -/
lemma collectImported_usage_eq_len (proj : List SrcFile) (root target dir : String)
    (imps : List ImportDecl) :
    (collectImported proj root target dir imps).2
      = (collectImported proj root target dir imps).1.length := by
  induction imps with
  | nil => rfl
  | cons a rest ih =>
    rw [collectImported]
    split
    · simp only [List.length_append, ih]
      try omega
    · exact ih

/-- If some import of the scanned file resolves to the target and carries at
least one imported name, `collectImported` returns a nonempty item list. -/
lemma collectImported_ne_nil {proj : List SrcFile} {root target dir : String}
    {imps : List ImportDecl} {imp : ImportDecl}
    (himp : imp ∈ imps)
    (hres : resolveImportPath proj root dir imp.moduleSpecifier = some target)
    (hnames : imp.defaultImport.toList ++ imp.namedImports ≠ []) :
    (collectImported proj root target dir imps).1 ≠ [] := by
  induction imps with
  | nil => cases himp
  | cons a rest ih =>
    rcases List.mem_cons.mp himp with rfl | hmem
    · rw [collectImported]
      simp only [hres, beq_self_eq_true, if_true]
      intro h
      exact hnames (List.append_eq_nil.mp h).1
    · rw [collectImported]
      split
      · intro h
        exact ih hmem (List.append_eq_nil.mp h).2
      · exact ih hmem

/-- A scanned file with a nonempty imported-item collection for the target
appears in the dependent scan. -/
lemma analyzeDependents_mem {proj : List SrcFile} {root target : String} {A : SrcFile}
    (hA : lookupFile proj A.path = some A)
    (hscan : isScannedFile root A.path = true)
    (hne : A.path ≠ target)
    (hcoll : (collectImported proj root target (pathDirname A.path) A.imports).1 ≠ []) :
    A.path ∈ (analyzeDependents proj root target).map (fun d => d.filePath) := by
  have hmem : A ∈ proj := List.mem_of_find?_eq_some hA
  have hfiles : A.path ∈ (proj.map SrcFile.path).filter (isScannedFile root) := by
    rw [List.mem_filter]
    exact ⟨List.mem_map.mpr ⟨A, hmem, rfl⟩, hscan⟩
  rw [analyzeDependents]
  rw [List.mem_map]
  refine ⟨{ filePath := A.path, relativePath := pathRelative root A.path,
            importedItems := (collectImported proj root target (pathDirname A.path) A.imports).1,
            usageCount := (collectImported proj root target (pathDirname A.path) A.imports).2 },
          ?_, rfl⟩
  rw [List.mem_filterMap]
  refine ⟨A.path, hfiles, ?_⟩
  simp only [hne, if_false, hA]
  simp only [List.isEmpty_iff, hcoll, if_false]

/-- C2 (amended): the claim fails for transitive forward dependencies (see
the counterexample); what holds is the direct-edge version.  If `B` is
recorded as a dependency of `A` through one of `A`'s own import declarations
(local specifier, resolving to `B` under the root) and that declaration
names at least one imported binding, and `A` itself lies in the scanned
`src` tree and differs from `B`, then `B` appears in `analyzeImpact A`'s
dependencies and `A` appears in `analyzeImpact B`'s dependents. -/
theorem claim_C2 (proj : List SrcFile) (root : String) (A B : SrcFile)
    (imp : ImportDecl)
    (hA : lookupFile proj A.path = some A)
    (hB : lookupFile proj B.path = some B)
    (habsA : pathIsAbsolute A.path = true)
    (habsB : pathIsAbsolute B.path = true)
    (himp : imp ∈ A.imports)
    (hlocal : (strStartsWith imp.moduleSpecifier "."
      || strStartsWith imp.moduleSpecifier "/") = true)
    (hres : resolveImportPath proj root (pathDirname A.path)
      imp.moduleSpecifier = some B.path)
    (hroot : strIncludes B.path root = true)
    (hnames : imp.defaultImport.toList ++ imp.namedImports ≠ [])
    (hscan : isScannedFile root A.path = true)
    (hne : A.path ≠ B.path) :
    (∃ r, (analyzeImpact proj root A.path).toOption = some r ∧
       B.path ∈ r.dependencies.map (fun d => d.filePath))
    ∧ (∃ r, (analyzeImpact proj root B.path).toOption = some r ∧
       A.path ∈ r.dependents.map (fun d => d.filePath)) := by
  constructor
  · have e1 : (analyzeImpact proj root A.path).toOption = some
        { targetFile := A.path
          targetRelativePath := pathRelative root A.path
          exports := extractExports A
          dependencies := analyzeDependencies proj root A
          dependents := analyzeDependents proj root A.path } := by
      simp only [analyzeImpact, habsA, if_true, hA]
      rfl
    exact ⟨_, e1, analyzeDependencies_mem himp hlocal hres hroot⟩
  · have e2 : (analyzeImpact proj root B.path).toOption = some
        { targetFile := B.path
          targetRelativePath := pathRelative root B.path
          exports := extractExports B
          dependencies := analyzeDependencies proj root B
          dependents := analyzeDependents proj root B.path } := by
      simp only [analyzeImpact, habsB, if_true, hB]
      rfl
    exact ⟨_, e2, analyzeDependents_mem hA hscan hne
      (collectImported_ne_nil himp hres hnames)⟩

/-- Counterexample to C2 as stated: `a.ts` reaches `b.ts` only transitively
(through `c.ts`), so `b.ts` is in `a.ts`'s forward dependency set, but the
dependent scan of `b.ts` records only the direct importer `c.ts`, not
`a.ts`. -/
theorem claim_C2_counterexample :
    ("/p/src/b.ts" ∈ ((analyzeImpact c2Proj "/p" "/p/src/a.ts").toOption.map
        (fun r => r.dependencies.map (fun d => d.filePath))).getD [])
    ∧ "/p/src/a.ts" ∉ ((analyzeImpact c2Proj "/p" "/p/src/b.ts").toOption.map
        (fun r => r.dependents.map (fun d => d.filePath))).getD ["/p/src/a.ts"] := by
  decide

/-- Witness for C2: a direct import edge, checked both ways. -/
theorem claim_C2_witness :
    (∃ r, (analyzeImpact c2wProj "/q" c2wFileA.path).toOption = some r ∧
       c2wFileB.path ∈ r.dependencies.map (fun d => d.filePath))
    ∧ (∃ r, (analyzeImpact c2wProj "/q" c2wFileB.path).toOption = some r ∧
       c2wFileA.path ∈ r.dependents.map (fun d => d.filePath)) :=
  claim_C2 c2wProj "/q" c2wFileA c2wFileB ⟨"./b", none, ["foo"]⟩
    (by decide) (by decide) (by decide) (by decide) (by decide) (by decide)
    (by decide) (by decide) (by decide) (by decide) (by decide)

/-- C8 (amended): `usageCount` equals the total number of imported bindings
(default and named, counted with multiplicity), i.e. the length of
`importedItems` — not the number of distinct names (see the
counterexample). -/
theorem claim_C8 : ∀ (proj : List SrcFile) (root target : String),
    (analyzeDependents proj root target).all
      (fun d => d.usageCount == d.importedItems.length) = true := by
  intro proj root target
  rw [List.all_eq_true]
  intro d hd
  rw [analyzeDependents, List.mem_filterMap] at hd
  obtain ⟨p, _, hp⟩ := hd
  by_cases hpt : p = target
  · simp only [if_pos hpt] at hp
    cases hp
  · simp only [if_neg hpt] at hp
    cases hl : lookupFile proj p with
    | none => rw [hl] at hp; cases hp
    | some sf =>
      rw [hl] at hp
      simp only [] at hp
      by_cases he : (collectImported proj root target
          (pathDirname p) sf.imports).1.isEmpty = true
      · rw [if_pos he] at hp; cases hp
      · rw [if_neg he] at hp
        rw [Option.some.injEq] at hp
        subst hp
        simp [collectImported_usage_eq_len]

/-- Counterexample to C8 as stated: `import { a as x, a as y } from './t'`
yields `importedItems = [a, a]` and `usageCount = 2`, while only one
distinct name is imported. -/
theorem claim_C8_counterexample :
    analyzeDependents c8Proj "/p" "/p/src/t.ts"
      = [⟨"/p/src/d.ts", "src/d.ts", ["a", "a"], 2⟩]
    ∧ (["a", "a"] : List String).eraseDups.length = 1 := by decide


/-- Invariant of the instrumented forward walk: the visited set grows by
exactly the logged paths, no path is logged twice, and every logged visit
stays within the depth bound and was not previously visited. -/
def TraceInv (visited : List String) (maxDepth : Nat) (r : TraceRes) : Prop :=
  r.2.1 = (r.2.2.map Prod.fst).reverse ++ visited
  ∧ (r.2.2.map Prod.fst).Nodup
  ∧ ∀ pd ∈ r.2.2, pd.2 ≤ maxDepth ∧ pd.1 ∉ visited

lemma traceInv_nil (visited : List String) (maxDepth : Nat) :
    TraceInv visited maxDepth ([], visited, []) := by
  refine ⟨rfl, List.nodup_nil, ?_⟩
  intro pd hpd
  cases hpd

lemma traceInv_seq {visited : List String} {maxDepth : Nat}
    {sub restRes : TraceRes} (deps : List DependencyInfo)
    (h1 : TraceInv visited maxDepth sub)
    (h2 : TraceInv sub.2.1 maxDepth restRes) :
    TraceInv visited maxDepth (deps, restRes.2.1, sub.2.2 ++ restRes.2.2) := by
  obtain ⟨e1, n1, p1⟩ := h1
  obtain ⟨e2, n2, p2⟩ := h2
  refine ⟨?_, ?_, ?_⟩
  · show restRes.2.1 = ((sub.2.2 ++ restRes.2.2).map Prod.fst).reverse ++ visited
    rw [e2, e1, List.map_append, List.reverse_append, List.append_assoc]
  · show ((sub.2.2 ++ restRes.2.2).map Prod.fst).Nodup
    rw [List.map_append]
    refine List.Nodup.append n1 n2 ?_
    intro x hx1 hx2
    obtain ⟨pd, hpd, rfl⟩ := List.mem_map.mp hx2
    refine (p2 pd hpd).2 ?_
    rw [e1, List.mem_append]
    left
    rw [List.mem_reverse]
    exact hx1
  · intro pd hpd
    rcases List.mem_append.mp hpd with h | h
    · exact p1 pd h
    · refine ⟨(p2 pd h).1, fun hv => (p2 pd h).2 ?_⟩
      rw [e1, List.mem_append]
      right
      exact hv

lemma traceInv_branch {maxDepth : Nat} {recur : SrcFile → List String → TraceRes}
    (hrec : ∀ f v, TraceInv v maxDepth (recur f v)) (doRecur : Bool)
    (o : Option SrcFile) (visited : List String) :
    TraceInv visited maxDepth
      (if doRecur then
        match o with
        | some f => recur f visited
        | none => ([], visited, [])
      else ([], visited, [])) := by
  split
  · cases o with
    | some f => exact hrec f visited
    | none => exact traceInv_nil visited maxDepth
  · exact traceInv_nil visited maxDepth

lemma processImports_inv {proj : List SrcFile} {root : String}
    {recur : SrcFile → List String → TraceRes} {doRecur : Bool}
    {fileDir : String} {maxDepth : Nat}
    (hrec : ∀ f v, TraceInv v maxDepth (recur f v)) :
    ∀ (imps : List ImportDecl) (visited : List String),
      TraceInv visited maxDepth
        (processImports proj root recur doRecur fileDir imps visited) := by
  intro imps
  induction imps with
  | nil => intro visited; exact traceInv_nil visited maxDepth
  | cons a rest ih =>
    intro visited
    rw [processImports]
    split
    · exact ih visited
    · split
      · exact ih visited
      · split
        · exact ih visited
        · exact traceInv_seq _ (traceInv_branch hrec doRecur _ visited) (ih _)

lemma analyzeDependenciesAux_inv (proj : List SrcFile) (root : String) :
    ∀ (fuel : Nat) (sf : SrcFile) (depth maxDepth : Nat) (visited : List String),
      TraceInv visited maxDepth
        (analyzeDependenciesAux proj root fuel sf depth maxDepth visited) := by
  intro fuel
  induction fuel with
  | zero => intro sf depth maxDepth visited; exact traceInv_nil visited maxDepth
  | succ fuel ih =>
    intro sf depth maxDepth visited
    rw [analyzeDependenciesAux]
    split
    · exact traceInv_nil visited maxDepth
    · next hdep =>
      split
      · exact traceInv_nil visited maxDepth
      · next hcont =>
        have hrec : ∀ f v, TraceInv v maxDepth
            (analyzeDependenciesAux proj root fuel f (depth + 1) maxDepth v) :=
          fun f v => ih f (depth + 1) maxDepth v
        have hr := @processImports_inv proj root _ (decide (depth < maxDepth))
          (pathDirname sf.path) maxDepth hrec sf.imports (sf.path :: visited)
        obtain ⟨e1, n1, p1⟩ := hr
        have hnv : sf.path ∉ visited := by
          intro hmem
          exact hcont (by simpa using hmem)
        refine ⟨?_, ?_, ?_⟩
        · show _ = (((sf.path, depth) :: _).map Prod.fst).reverse ++ visited
          rw [e1]
          simp [List.append_assoc]
        · show ((sf.path, depth) :: _).map Prod.fst |>.Nodup
          rw [List.map_cons]
          refine List.nodup_cons.mpr ⟨?_, n1⟩
          intro hmem
          obtain ⟨pd, hpd, hfst⟩ := List.mem_map.mp hmem
          exact (p1 pd hpd).2 (by rw [hfst]; exact List.mem_cons_self _ _)
        · intro pd hpd
          rcases List.mem_cons.mp hpd with rfl | h
          · exact ⟨by omega, hnv⟩
          · exact ⟨(p1 pd h).1, fun hv => (p1 pd h).2 (List.mem_cons_of_mem _ hv)⟩

/-- Cyclic project for C3: `a.ts` imports `b.ts` and `b.ts` imports
`a.ts`. -/
def c3FileA : SrcFile :=
  { path := "/p/src/a.ts", imports := [{ moduleSpecifier := "./b", namedImports := ["b1"] }] }

def c3FileB : SrcFile :=
  { path := "/p/src/b.ts", imports := [{ moduleSpecifier := "./a", namedImports := ["a1"] }] }

def c3Proj : List SrcFile := [c3FileA, c3FileB]

/-- C3: the forward traversal of one `analyzeImpact` query (fuel `4`,
`depth = 0`, `maxDepth = 3`, fresh visited set — the instrumented walk whose
`.1` is `analyzeDependencies`) terminates (it is a total function), visits
no file twice (the visit log has no duplicate path), and never goes past
depth `3`; on the concrete cyclic project `a.ts ↔ b.ts` it visits exactly
`a.ts` at depth 0 and `b.ts` at depth 1. -/
theorem claim_C3 :
    (∀ (proj : List SrcFile) (root : String) (sf : SrcFile),
      ((analyzeDependenciesAux proj root 4 sf 0 3 []).2.2.map Prod.fst).Nodup
      ∧ (analyzeDependenciesAux proj root 4 sf 0 3 []).2.2.all
          (fun pd => decide (pd.2 ≤ 3)) = true)
    ∧ (analyzeDependenciesAux c3Proj "/p" 4 c3FileA 0 3 []).2.2
        = [("/p/src/a.ts", 0), ("/p/src/b.ts", 1)] := by
  refine ⟨?_, by decide⟩
  intro proj root sf
  have h := analyzeDependenciesAux_inv proj root 4 sf 0 3 []
  refine ⟨h.2.1, ?_⟩
  rw [List.all_eq_true]
  intro pd hpd
  simpa using (h.2.2 pd hpd).1


/-- The score one keyword adds for one file in `calculateMatchScore`
(file-name tier or else path tier, plus the per-symbol tiers). -/
def perKeywordScore (file : FileAnalysis) (keyword : String) : Nat :=
  (if strIncludes (strToLower (pathBasename file.filePath)) keyword then 10
   else if strIncludes (strToLower file.relativePath) keyword then 5 else 0)
  + 8 * (file.exports.filter (fun e => strIncludes (strToLower e) keyword)).length
  + 6 * (file.functions.filter (fun f =>
      match f with
      | some n => strIncludes (strToLower n) keyword
      | none => false)).length
  + 6 * (file.interfaces.filter (fun i =>
      match i with
      | some n => strIncludes (strToLower n) keyword
      | none => false)).length

lemma scoreStep_fst (file : FileAnalysis) (st : Nat × List String) (kw : String) :
    (scoreStep file st kw).1 = st.1 + perKeywordScore file kw := by
  simp only [scoreStep, perKeywordScore]
  omega

lemma calculateMatchScore_fst (file : FileAnalysis) (keywords : List String) :
    (calculateMatchScore file keywords).1
      = (keywords.map (perKeywordScore file)).sum := by
  have main : ∀ (kws : List String) (st : Nat × List String),
      (kws.foldl (scoreStep file) st).1
        = st.1 + (kws.map (perKeywordScore file)).sum := by
    intro kws
    induction kws with
    | nil => intro st; simp
    | cons a rest ih =>
      intro st
      rw [List.foldl_cons, ih, scoreStep_fst]
      simp [Nat.add_assoc]
  rw [calculateMatchScore]
  rw [main keywords (0, [])]
  simp

/-- The file of C9's example: `userProfile.ts`, no exported symbols,
functions or interfaces. -/
def c9File : FileAnalysis :=
  { filePath := "/p/src/userProfile.ts", relativePath := "src/userProfile.ts" }

/-- C9 (amended): the total score is the sum of the per-keyword tier scores
(all tiers additive, only the path tier excluded by the file-name tier), and
every keyword that occurs verbatim in the lower-cased base name contributes
its 10 points, so such a file scores at least 10.  The original
"case-insensitive" reading fails for keywords that are not lower-cased (see
the counterexample): the code lower-cases the file name but not the
keyword. -/
theorem claim_C9 :
    (∀ (file : FileAnalysis) (keywords : List String),
      (calculateMatchScore file keywords).1
        = (keywords.map (perKeywordScore file)).sum)
    ∧ (∀ (file : FileAnalysis) (keywords : List String) (kw : String),
        kw ∈ keywords →
        strIncludes (strToLower (pathBasename file.filePath)) kw = true →
        10 ≤ (calculateMatchScore file keywords).1) := by
  refine ⟨calculateMatchScore_fst, ?_⟩
  intro file keywords kw hmem hname
  rw [calculateMatchScore_fst]
  have h10 : 10 ≤ perKeywordScore file kw := by
    rw [perKeywordScore, if_pos hname]
    omega
  have hle : perKeywordScore file kw ≤ (keywords.map (perKeywordScore file)).sum :=
    List.single_le_sum (fun x _ => Nat.zero_le x) _
      (List.mem_map.mpr ⟨kw, hmem, rfl⟩)
  omega

/-- Counterexample to C9 as stated: `USER` is a case-insensitive substring
of the base name `userProfile.ts`, yet the file scores 0 (the code compares
the raw keyword against the lower-cased name). -/
theorem claim_C9_counterexample :
    strIncludes (strToLower (pathBasename c9File.filePath)) (strToLower "USER") = true
    ∧ (calculateMatchScore c9File ["USER"]).1 = 0 := by decide

/-- Witness for C9: `userProfile.ts` against the single keyword `user`
scores at least 10 with no other tier matching. -/
theorem claim_C9_witness :
    10 ≤ (calculateMatchScore c9File ["user"]).1 :=
  claim_C9.2 c9File ["user"] "user" (by decide) (by decide)

/-- C10: a staged entry whose status letter is not `A`, `M` or `D` (e.g. a
rename line `R100<TAB>old<TAB>new`) is dropped by `getStagedFiles`, so the
whole analysis — file changes and summary counts alike — is identical to the
analysis of the listing without that line. -/
theorem claim_C10 :
    (∀ (root : String) (diffOf : String → List String)
       (treeOf : String → Option FileTree) (pre post : List String)
       (line : String),
      parseStagedLine line = none →
      analyzeStagedChanges root diffOf treeOf (pre ++ line :: post)
        = analyzeStagedChanges root diffOf treeOf (pre ++ post))
    ∧ parseStagedLine "R100\told.ts\tnew.ts" = none := by
  refine ⟨?_, by decide⟩
  intro root diffOf treeOf pre post line h
  have hEq : getStagedFiles (pre ++ line :: post) = getStagedFiles (pre ++ post) := by
    simp [getStagedFiles, List.filterMap_append, List.filterMap_cons, h]
  simp only [analyzeStagedChanges, hEq]

/-- Witness for C10: dropping a rename line changes nothing. -/
theorem claim_C10_witness :
    analyzeStagedChanges "/p" (fun _ => []) (fun _ => none)
      ["A\ta.ts", "R100\told.ts\tnew.ts"]
      = analyzeStagedChanges "/p" (fun _ => []) (fun _ => none) ["A\ta.ts"] :=
  claim_C10.1 "/p" (fun _ => []) (fun _ => none) ["A\ta.ts"] []
    "R100\told.ts\tnew.ts" (by decide)

/-- The Boolean guard of one `findFollowingCodeBlock` step. -/
def ffcbGuard (text : String) (commentLine : Nat) (minD : Option Nat)
    (d : NodeData) : Bool :=
  lineOfPos text d.startPos > commentLine
    && match minD with
       | none => true
       | some m => lineOfPos text d.startPos - commentLine < m

lemma ffcbStep_eq_guard (text : String) (commentLine : Nat)
    (st : Option HBlock × Option Nat) (dp : NodeData × NodeData) :
    ffcbStep text commentLine st dp =
      if ffcbGuard text commentLine st.2 dp.1 then
        match hBlockTypeOf dp.1 dp.2 with
        | some tn =>
          (some { type := tn.1, name := tn.2, code := dp.1.text
                  startLine := lineOfPos text dp.1.startPos
                  endLine := lineOfPos text dp.1.endPos },
           some (lineOfPos text dp.1.startPos - commentLine))
        | none => st
      else st := rfl


/-- Invariant of the `findFollowingCodeBlock` fold over the descendants seen
so far: `none` means no accepted node starts after the marker line, and
`some b` is an accepted node of minimal positive line distance, with
`minDistance` tracking that distance. -/
def FfcbInv (text : String) (commentLine : Nat)
    (seen : List (NodeData × NodeData)) (st : Option HBlock × Option Nat) :
    Prop :=
  (st.1 = none → st.2 = none
    ∧ ∀ dp ∈ seen, (hBlockTypeOf dp.1 dp.2).isSome = true →
        lineOfPos text dp.1.startPos ≤ commentLine)
  ∧ ∀ b, st.1 = some b →
      st.2 = some (b.startLine - commentLine)
      ∧ commentLine < b.startLine
      ∧ (∃ dp ∈ seen, (hBlockTypeOf dp.1 dp.2).isSome = true
          ∧ lineOfPos text dp.1.startPos = b.startLine)
      ∧ ∀ dp ∈ seen, (hBlockTypeOf dp.1 dp.2).isSome = true →
          commentLine < lineOfPos text dp.1.startPos →
          b.startLine ≤ lineOfPos text dp.1.startPos

lemma ffcbStep_inv {text : String} {commentLine : Nat}
    {seen : List (NodeData × NodeData)} {st : Option HBlock × Option Nat}
    (h : FfcbInv text commentLine seen st) (dp : NodeData × NodeData) :
    FfcbInv text commentLine (seen ++ [dp]) (ffcbStep text commentLine st dp) := by
  rw [ffcbStep_eq_guard]
  by_cases hg : ffcbGuard text commentLine st.2 dp.1 = true
  · rw [if_pos hg]
    cases hacc : hBlockTypeOf dp.1 dp.2 with
    | none =>
      -- guard fired but the node kind is not accepted: state unchanged
      refine ⟨fun hn => ?_, fun b hb => ?_⟩
      · obtain ⟨h2, h3⟩ := h.1 hn
        refine ⟨h2, fun x hx hxa => ?_⟩
        rcases List.mem_append.mp hx with hxs | hxl
        · exact h3 x hxs hxa
        · rw [List.mem_singleton] at hxl
          subst hxl
          rw [hacc] at hxa
          cases hxa
      · obtain ⟨h2, h3, h4, h5⟩ := h.2 b hb
        refine ⟨h2, h3, ?_, fun x hx hxa hxgt => ?_⟩
        · obtain ⟨x, hxs, hxp⟩ := h4
          exact ⟨x, List.mem_append_left _ hxs, hxp⟩
        · rcases List.mem_append.mp hx with hxs | hxl
          · exact h5 x hxs hxa hxgt
          · rw [List.mem_singleton] at hxl
            subst hxl
            rw [hacc] at hxa
            cases hxa
    | some tn =>
      -- new best
      have hgt : commentLine < lineOfPos text dp.1.startPos := by
        rw [ffcbGuard.eq_def, Bool.and_eq_true] at hg
        simpa using hg.1
      refine ⟨fun hn => Option.noConfusion hn, fun b hb => ?_⟩
      rw [Option.some.injEq] at hb
      subst hb
      refine ⟨rfl, hgt, ?_, fun x hx hxa hxgt => ?_⟩
      · exact ⟨dp, List.mem_append_right _ (List.mem_singleton.mpr rfl),
          by rw [hacc]; rfl, rfl⟩
      · rcases List.mem_append.mp hx with hxs | hxl
        · -- earlier accepted nodes are at least as far as the new node
          show lineOfPos text dp.1.startPos ≤ lineOfPos text x.1.startPos
          cases hst : st.1 with
          | none =>
            have := (h.1 hst).2 x hxs hxa
            omega
          | some b0 =>
            obtain ⟨h2, h3, _, h5⟩ := h.2 b0 hst
            have hxb := h5 x hxs hxa hxgt
            rw [ffcbGuard.eq_def, h2, Bool.and_eq_true] at hg
            have hm : lineOfPos text dp.1.startPos - commentLine
                < b0.startLine - commentLine := by simpa using hg.2
            omega
        · rw [List.mem_singleton] at hxl
          subst hxl
          exact Nat.le_refl _
  · rw [if_neg hg]
    refine ⟨fun hn => ?_, fun b hb => ?_⟩
    · obtain ⟨h2, h3⟩ := h.1 hn
      refine ⟨h2, fun x hx hxa => ?_⟩
      rcases List.mem_append.mp hx with hxs | hxl
      · exact h3 x hxs hxa
      · rw [List.mem_singleton] at hxl
        subst hxl
        rw [ffcbGuard.eq_def, h2] at hg
        simp only [Bool.and_true, decide_eq_true_eq] at hg
        omega
    · obtain ⟨h2, h3, h4, h5⟩ := h.2 b hb
      refine ⟨h2, h3, ?_, fun x hx hxa hxgt => ?_⟩
      · obtain ⟨x, hxs, hxp⟩ := h4
        exact ⟨x, List.mem_append_left _ hxs, hxp⟩
      · rcases List.mem_append.mp hx with hxs | hxl
        · exact h5 x hxs hxa hxgt
        · rw [List.mem_singleton] at hxl
          subst hxl
          rw [ffcbGuard.eq_def, h2] at hg
          rw [Bool.and_eq_true] at hg
          have : ¬ (lineOfPos text x.1.startPos - commentLine
              < b.startLine - commentLine) := by
            intro hc
            exact hg ⟨by simpa using hxgt, by simpa using hc⟩
          omega


lemma ffcbFold_inv (text : String) (commentLine : Nat) :
    ∀ (l seen : List (NodeData × NodeData)) (st : Option HBlock × Option Nat),
      FfcbInv text commentLine seen st →
      FfcbInv text commentLine (seen ++ l) (l.foldl (ffcbStep text commentLine) st) := by
  intro l
  induction l with
  | nil => intro seen st h; simpa using h
  | cons a rest ih =>
    intro seen st h
    rw [List.foldl_cons]
    have h2 := ih (seen ++ [a]) _ (ffcbStep_inv h a)
    simpa [List.append_assoc] using h2

lemma findFollowingCodeBlock_inv (file : FileTree) (commentLine : Nat) :
    FfcbInv file.text commentLine (descendantsWithParent file.root)
      ((descendantsWithParent file.root).foldl
        (ffcbStep file.text commentLine) (none, none)) := by
  have h0 : FfcbInv file.text commentLine [] (none, none) :=
    ⟨fun _ => ⟨rfl, fun x hx => (List.not_mem_nil x hx).elim⟩,
     fun b hb => Option.noConfusion hb⟩
  simpa using ffcbFold_inv file.text commentLine
    (descendantsWithParent file.root) [] (none, none) h0

/-- C7 (amended): the marker mapping returns a node of the kinds the
hydrator accepts — function, method, class, or ANY arrow function (named by
its variable only when directly bound; an unbound arrow is accepted too,
which is where the original claim fails, see the counterexample) — whose
start line is strictly after the marker line and of minimal line distance
among all such nodes; it returns `none` exactly when no accepted node starts
after the marker. -/
theorem claim_C7 (file : FileTree) (commentLine : Nat) :
    (∀ b, findFollowingCodeBlock file commentLine = some b →
      commentLine < b.startLine
      ∧ (∃ dp ∈ descendantsWithParent file.root,
          (hBlockTypeOf dp.1 dp.2).isSome = true
          ∧ lineOfPos file.text dp.1.startPos = b.startLine)
      ∧ ∀ dp ∈ descendantsWithParent file.root,
          (hBlockTypeOf dp.1 dp.2).isSome = true →
          commentLine < lineOfPos file.text dp.1.startPos →
          b.startLine ≤ lineOfPos file.text dp.1.startPos)
    ∧ (findFollowingCodeBlock file commentLine = none →
        ∀ dp ∈ descendantsWithParent file.root,
          (hBlockTypeOf dp.1 dp.2).isSome = true →
          lineOfPos file.text dp.1.startPos ≤ commentLine) := by
  have h := findFollowingCodeBlock_inv file commentLine
  constructor
  · intro b hb
    obtain ⟨_, h3, h4, h5⟩ := h.2 b hb
    exact ⟨h3, h4, h5⟩
  · intro hn
    exact (h.1 hn).2

/-- Counterexample file for C7: a marker line, then a callback arrow
function (line 2), then a function declaration (line 5). -/
def c7Text : String := "// @AI-TODO fix\nuseX(() => \x7b\n  1;\n\x7d);\nfunction g() \x7b\n  return 2;\n\x7d\n"

def c7Tree : STree :=
  .node { kind := .other, startPos := 0, endPos := 67 }
    [.node { kind := .other, startPos := 16, endPos := 37 }
      [.node { kind := .arrowFunction, startPos := 21, endPos := 36,
               text := "() => \x7b\n  1;\n\x7d" } []],
     .node { kind := .functionDeclaration, name := some "g", startPos := 38,
             endPos := 66, text := "function g() \x7b\n  return 2;\n\x7d" } []]

def c7File : FileTree := ⟨c7Text, c7Tree⟩

/-- Counterexample to C7 as stated: the nearest accepted node after the
marker is an arrow function that is NOT bound to a variable (a callback
argument, startLine 2, no name); the nearest declaration of the claim's
kinds is the function at line 5, yet the mapper returns the unbound
arrow. -/
theorem claim_C7_counterexample :
    (findFollowingCodeBlock c7File 1).map (fun b => (b.type, b.name, b.startLine))
      = some (.arrow, none, 2)
    ∧ ((descendantsWithParent c7File.root).filter
        (fun dp => (hBlockTypeOf dp.1 dp.2).isSome)).map
        (fun dp => (dp.1.kind, lineOfPos c7File.text dp.1.startPos))
      = [(.arrowFunction, 2), (.functionDeclaration, 5)] := by decide

/-- Witness file for C7: a marker line followed by one function. -/
def c7wText : String := "// m\nfunction f() \x7b\n\x7d\n"

def c7wTree : STree :=
  .node { kind := .other, startPos := 0, endPos := 22 }
    [.node { kind := .functionDeclaration, name := some "f", startPos := 5,
             endPos := 21, text := "function f() \x7b\n\x7d" } []]

def c7wFile : FileTree := ⟨c7wText, c7wTree⟩

/-- Witness for C7: on a file with a single function after the marker, the
mapping returns it, it starts after the marker, and it is minimal. -/
theorem claim_C7_witness :
    1 < 2
    ∧ (∃ dp ∈ descendantsWithParent c7wFile.root,
        (hBlockTypeOf dp.1 dp.2).isSome = true
        ∧ lineOfPos c7wFile.text dp.1.startPos = 2)
    ∧ (∀ dp ∈ descendantsWithParent c7wFile.root,
        (hBlockTypeOf dp.1 dp.2).isSome = true →
        1 < lineOfPos c7wFile.text dp.1.startPos →
        2 ≤ lineOfPos c7wFile.text dp.1.startPos) :=
  (claim_C7 c7wFile 1).1
    { type := .function, name := some "f", code := "function f() \x7b\n\x7d",
      startLine := 2, endLine := 3 } (by decide)



/-- The decimal value of a digit string (used only to invert `Nat.repr`). -/
def digitsVal (l : List Char) : Nat :=
  l.foldl (fun a c => 10 * a + (c.toNat - '0'.toNat)) 0

lemma toDigitsCore_append (fuel : Nat) : ∀ (n : Nat) (ds : List Char),
    Nat.toDigitsCore 10 fuel n ds = Nat.toDigitsCore 10 fuel n [] ++ ds := by
  induction fuel with
  | zero => intro n ds; rfl
  | succ fuel ih =>
    intro n ds
    simp only [Nat.toDigitsCore]
    split
    · simp
    · rw [ih (n / 10) (Nat.digitChar (n % 10) :: ds),
         ih (n / 10) [Nat.digitChar (n % 10)], List.append_assoc]
      rfl

lemma digitsVal_append_singleton (l : List Char) (c : Char) :
    digitsVal (l ++ [c]) = 10 * digitsVal l + (c.toNat - '0'.toNat) := by
  simp [digitsVal, List.foldl_append]

lemma digitsVal_toDigitsCore : ∀ (fuel n : Nat), n < 10 ^ fuel →
    digitsVal (Nat.toDigitsCore 10 fuel n []) = n := by
  intro fuel
  induction fuel with
  | zero =>
    intro n h
    interval_cases n
    rfl
  | succ fuel ih =>
    intro n h
    have hd : ∀ m, m < 10 → (Nat.digitChar m).toNat - '0'.toNat = m := by decide
    simp only [Nat.toDigitsCore]
    split
    · next h0 =>
      have hn10 : n < 10 := by omega
      have hmod : n % 10 = n := Nat.mod_eq_of_lt hn10
      have hv := hd n hn10
      simp only [digitsVal, List.foldl_cons, List.foldl_nil, hmod]
      omega
    · next h0 =>
      have hdiv : n / 10 < 10 ^ fuel := by
        rw [Nat.div_lt_iff_lt_mul (by decide)]
        rw [pow_succ] at h
        exact h
      have hv := hd (n % 10) (Nat.mod_lt _ (by decide))
      rw [toDigitsCore_append, digitsVal_append_singleton, ih (n / 10) hdiv, hv]
      omega

lemma nat_repr_val (n : Nat) : digitsVal (Nat.repr n).data = n := by
  have h : n < 10 ^ (n + 1) :=
    lt_of_lt_of_le (Nat.lt_pow_self (by decide) n)
      (Nat.pow_le_pow_right (by decide) (Nat.le_succ n))
  exact digitsVal_toDigitsCore (n + 1) n h

lemma nat_repr_inj {n m : Nat} (h : Nat.repr n = Nat.repr m) : n = m := by
  rw [← nat_repr_val n, ← nat_repr_val m, h]


lemma toDigitsCore_no_dash : ∀ (fuel n : Nat) (ds : List Char),
    '-' ∉ ds → '-' ∉ Nat.toDigitsCore 10 fuel n ds := by
  intro fuel
  induction fuel with
  | zero => intro n ds h; simpa [Nat.toDigitsCore] using h
  | succ fuel ih =>
    intro n ds h
    have hd : Nat.digitChar (n % 10) ≠ '-' := by
      have hmod : n % 10 < 10 := Nat.mod_lt _ (by decide)
      have : ∀ m, m < 10 → Nat.digitChar m ≠ '-' := by decide
      exact this _ hmod
    simp only [Nat.toDigitsCore]
    split
    · simp only [List.mem_cons, not_or]
      exact ⟨fun hc => hd hc.symm, h⟩
    · refine ih (n / 10) _ ?_
      simp only [List.mem_cons, not_or]
      exact ⟨fun hc => hd hc.symm, h⟩

lemma repr_no_dash (n : Nat) : '-' ∉ (Nat.repr n).data :=
  toDigitsCore_no_dash (n + 1) n [] (List.not_mem_nil '-')

lemma typeToString_no_dash (t : BlockType) : '-' ∉ (typeToString t).data := by
  cases t <;> decide

lemma dashFree_prefix_inj : ∀ {t1 t2 r1 r2 : List Char}, '-' ∉ t1 → '-' ∉ t2 →
    t1 ++ '-' :: r1 = t2 ++ '-' :: r2 → t1 = t2 ∧ r1 = r2 := by
  intro t1
  induction t1 with
  | nil =>
    intro t2 r1 r2 _ h2 h
    cases t2 with
    | nil => simpa using h
    | cons c t2 =>
      rw [List.nil_append, List.cons_append, List.cons.injEq] at h
      exact absurd (h.1 ▸ List.mem_cons_self c t2) h2
  | cons c t1 ih =>
    intro t2 r1 r2 h1 h2 h
    cases t2 with
    | nil =>
      rw [List.nil_append, List.cons_append, List.cons.injEq] at h
      exact absurd (h.1 ▸ List.mem_cons_self c t1) h1
    | cons c2 t2 =>
      rw [List.cons_append, List.cons_append, List.cons.injEq] at h
      have h1' : '-' ∉ t1 := fun hc => h1 (List.mem_cons_of_mem _ hc)
      have h2' : '-' ∉ t2 := fun hc => h2 (List.mem_cons_of_mem _ hc)
      obtain ⟨hte, hre⟩ := ih h1' h2' h.2
      exact ⟨by rw [h.1, hte], hre⟩

lemma dash_last_inj {n1 n2 s1 s2 : List Char} (hs1 : '-' ∉ s1) (hs2 : '-' ∉ s2)
    (h : n1 ++ '-' :: s1 = n2 ++ '-' :: s2) : n1 = n2 ∧ s1 = s2 := by
  have hrev : s1.reverse ++ '-' :: n1.reverse = s2.reverse ++ '-' :: n2.reverse := by
    have := congrArg List.reverse h
    simpa [List.reverse_append] using this
  have hs1' : '-' ∉ s1.reverse := by simpa using hs1
  have hs2' : '-' ∉ s2.reverse := by simpa using hs2
  obtain ⟨hse, hne⟩ := dashFree_prefix_inj hs1' hs2' hrev
  constructor
  · have := congrArg List.reverse hne
    simpa using this
  · have := congrArg List.reverse hse
    simpa using this

lemma string_data_inj {a b : String} (h : a.data = b.data) : a = b := by
  cases a
  cases b
  exact congrArg String.mk h

lemma blockKey_inj {b1 b2 : CodeBlock} (h : blockKey b1 = blockKey b2) :
    b1.type = b2.type ∧ b1.name = b2.name ∧ b1.startLine = b2.startLine := by
  have hdata : (typeToString b1.type).data ++ '-' ::
      (b1.name.data ++ '-' :: (Nat.repr b1.startLine).data)
      = (typeToString b2.type).data ++ '-' ::
        (b2.name.data ++ '-' :: (Nat.repr b2.startLine).data) := by
    have := congrArg String.data h
    simpa [blockKey, String.data_append, List.append_assoc] using this
  obtain ⟨hte, hrest⟩ := dashFree_prefix_inj
    (typeToString_no_dash b1.type) (typeToString_no_dash b2.type) hdata
  obtain ⟨hne, hse⟩ := dash_last_inj
    (repr_no_dash b1.startLine) (repr_no_dash b2.startLine) hrest
  refine ⟨?_, string_data_inj hne, nat_repr_inj (string_data_inj hse)⟩
  have : typeToString b1.type = typeToString b2.type := string_data_inj hte
  revert this
  cases b1.type <;> cases b2.type <;> decide


/-- Identity used for deduplication in `locateAffectedBlocks`. -/
def sameBlockId (a b : CodeBlock) : Prop :=
  a.type = b.type ∧ a.name = b.name ∧ a.startLine = b.startLine

lemma blockKey_congr {a b : CodeBlock} (h : sameBlockId a b) :
    blockKey a = blockKey b := by
  obtain ⟨h1, h2, h3⟩ := h
  rw [blockKey, blockKey, h1, h2, h3]

lemma blockOfNode_lines {text : String} {ln : Nat} {d : NodeData} {b : CodeBlock}
    (h : blockOfNode text ln d = some b) : b.changedLineNumbers = [ln] := by
  rw [blockOfNode] at h
  split at h <;>
    first
    | (rw [Option.some.injEq] at h; subst h; rfl)
    | cases h
    | (split at h
       · rw [Option.some.injEq] at h; subst h; rfl
       · cases h)

lemma firstBlock_lines {text : String} {ln : Nat} :
    ∀ {l : List NodeData} {b : CodeBlock},
      firstBlock text ln l = some b → b.changedLineNumbers = [ln] := by
  intro l
  induction l with
  | nil => intro b h; cases h
  | cons d rest ih =>
    intro b h
    rw [firstBlock] at h
    cases hd : blockOfNode text ln d with
    | some b0 =>
      rw [hd] at h
      rw [Option.some.injEq] at h
      subst h
      exact blockOfNode_lines hd
    | none =>
      rw [hd] at h
      exact ih h

lemma findCodeBlockAtLine_lines {file : FileTree} {ln : Nat} {b : CodeBlock}
    (h : findCodeBlockAtLine file ln = some b) : b.changedLineNumbers = [ln] := by
  rw [findCodeBlockAtLine] at h
  split at h
  · exact firstBlock_lines h
  · cases h

/-- `addLineToFirst` preserves every block's identity and key. -/
lemma addLineToFirst_map_key (blocks : List CodeBlock) (b : CodeBlock) (l : Nat) :
    (addLineToFirst blocks b l).map blockKey = blocks.map blockKey := by
  induction blocks with
  | nil => rfl
  | cons b0 rest ih =>
    rw [addLineToFirst]
    split
    · split <;> simp [blockKey]
    · simp [ih]

/-- Every element survives `addLineToFirst` with the same identity and at
least its old changed lines. -/
lemma addLineToFirst_preserves {blocks : List CodeBlock} {b0 : CodeBlock}
    (b : CodeBlock) (l : Nat) (hmem : b0 ∈ blocks) :
    ∃ b1 ∈ addLineToFirst blocks b l, sameBlockId b1 b0
      ∧ ∀ x ∈ b0.changedLineNumbers, x ∈ b1.changedLineNumbers := by
  induction blocks with
  | nil => cases hmem
  | cons c rest ih =>
    rw [addLineToFirst]
    rcases List.mem_cons.mp hmem with rfl | hmem'
    · split
      · split
        · exact ⟨b0, List.mem_cons_self _ _, ⟨rfl, rfl, rfl⟩, fun x hx => hx⟩
        · refine ⟨{ b0 with changedLineNumbers := b0.changedLineNumbers ++ [l] },
            List.mem_cons_self _ _, ⟨rfl, rfl, rfl⟩, fun x hx => List.mem_append_left _ hx⟩
      · exact ⟨b0, List.mem_cons_self _ _, ⟨rfl, rfl, rfl⟩, fun x hx => hx⟩
    · split
      · exact ⟨b0, List.mem_cons_of_mem _ hmem', ⟨rfl, rfl, rfl⟩, fun x hx => hx⟩
      · obtain ⟨b1, hb1, hid, hsub⟩ := ih hmem'
        exact ⟨b1, List.mem_cons_of_mem _ hb1, hid, hsub⟩

/-- If some block with `b`'s identity is present, `addLineToFirst` yields a
block with that identity containing `l`. -/
lemma addLineToFirst_adds {blocks : List CodeBlock} {b0 : CodeBlock}
    (b : CodeBlock) (l : Nat) (hmem : b0 ∈ blocks) (hid : sameBlockId b0 b) :
    ∃ b1 ∈ addLineToFirst blocks b l, sameBlockId b1 b
      ∧ l ∈ b1.changedLineNumbers := by
  induction blocks with
  | nil => cases hmem
  | cons c rest ih =>
    rw [addLineToFirst]
    by_cases hc : c.type = b.type ∧ c.name = b.name ∧ c.startLine = b.startLine
    · rw [if_pos hc]
      split
      · next hin => exact ⟨c, List.mem_cons_self _ _, hc, hin⟩
      · exact ⟨{ c with changedLineNumbers := c.changedLineNumbers ++ [l] },
          List.mem_cons_self _ _, hc,
          List.mem_append_right _ (List.mem_singleton.mpr rfl)⟩
    · rw [if_neg hc]
      rcases List.mem_cons.mp hmem with rfl | hmem'
      · exact absurd hid hc
      · obtain ⟨b1, hb1, hid1, hl1⟩ := ih hmem'
        exact ⟨b1, List.mem_cons_of_mem _ hb1, hid1, hl1⟩


/-- Fold invariant of `locateAffectedBlocks`: the processed-key set is
exactly the keys of the recorded blocks and no key repeats. -/
def LocInv (st : List CodeBlock × List String) : Prop :=
  (∀ k, k ∈ st.2 ↔ k ∈ st.1.map blockKey) ∧ (st.1.map blockKey).Nodup

def HasLine (blocks : List CodeBlock) (b : CodeBlock) (l : Nat) : Prop :=
  ∃ b' ∈ blocks, sameBlockId b' b ∧ l ∈ b'.changedLineNumbers

lemma locateStep_inv {file : FileTree} {st : List CodeBlock × List String}
    {cl : ChangedLine} (h : LocInv st) : LocInv (locateStep file st cl) := by
  rw [locateStep]
  cases hf : findCodeBlockAtLine file cl.lineNumber with
  | none => exact h
  | some block =>
    simp only []
    by_cases hc : st.2.contains (blockKey block) = true
    · rw [if_pos hc]
      refine ⟨fun k => ?_, ?_⟩
      · show k ∈ st.2 ↔ _
        rw [addLineToFirst_map_key]
        exact h.1 k
      · show ((addLineToFirst st.1 block cl.lineNumber).map blockKey).Nodup
        rw [addLineToFirst_map_key]
        exact h.2
    · rw [if_neg hc]
      have hnk : blockKey block ∉ st.1.map blockKey := by
        rw [← h.1]
        intro hmem
        exact hc (List.contains_iff_exists_mem_beq.mpr ⟨_, hmem, by simp⟩)
      refine ⟨fun k => ?_, ?_⟩
      · show k ∈ blockKey block :: st.2 ↔ k ∈ (st.1 ++ [block]).map blockKey
        rw [List.mem_cons, h.1 k, List.map_append, List.mem_append]
        simp [or_comm]
      · show ((st.1 ++ [block]).map blockKey).Nodup
        rw [List.map_append]
        refine List.Nodup.append h.2 (List.nodup_singleton _) ?_
        intro x hx1 hx2
        rw [List.map_singleton, List.mem_singleton] at hx2
        subst hx2
        exact hnk hx1

lemma locateStep_has {file : FileTree} {st : List CodeBlock × List String}
    {cl : ChangedLine} {b : CodeBlock} {l : Nat} (h : HasLine st.1 b l) :
    HasLine (locateStep file st cl).1 b l := by
  obtain ⟨b0, hmem, hid, hl⟩ := h
  rw [locateStep]
  cases hf : findCodeBlockAtLine file cl.lineNumber with
  | none => exact ⟨b0, hmem, hid, hl⟩
  | some block =>
    simp only []
    split
    · obtain ⟨b1, hb1, hid1, hsub⟩ :=
        @addLineToFirst_preserves st.1 b0 block cl.lineNumber hmem
      exact ⟨b1, hb1,
        ⟨hid1.1.trans hid.1, hid1.2.1.trans hid.2.1, hid1.2.2.trans hid.2.2⟩,
        hsub l hl⟩
    · exact ⟨b0, List.mem_append_left _ hmem, hid, hl⟩

lemma locateStep_establish {file : FileTree} {st : List CodeBlock × List String}
    {cl : ChangedLine} {b : CodeBlock} (hinv : LocInv st)
    (hf : findCodeBlockAtLine file cl.lineNumber = some b) :
    HasLine (locateStep file st cl).1 b cl.lineNumber := by
  rw [locateStep, hf]
  simp only []
  by_cases hc : st.2.contains (blockKey b) = true
  · rw [if_pos hc]
    have hkmem : blockKey b ∈ st.1.map blockKey := by
      rw [← hinv.1]
      obtain ⟨k, hk, hbeq⟩ := List.contains_iff_exists_mem_beq.mp hc
      rwa [show k = blockKey b from (by simpa using hbeq : blockKey b = k).symm] at hk
    obtain ⟨b0, hb0, hkey⟩ := List.mem_map.mp hkmem
    have hid : sameBlockId b0 b := blockKey_inj hkey
    exact addLineToFirst_adds b cl.lineNumber hb0 hid
  · rw [if_neg hc]
    exact ⟨b, List.mem_append_right _ (List.mem_singleton.mpr rfl),
      ⟨rfl, rfl, rfl⟩,
      by rw [findCodeBlockAtLine_lines hf]; exact List.mem_singleton.mpr rfl⟩

lemma locate_fold_inv (file : FileTree) :
    ∀ (lines : List ChangedLine) (st : List CodeBlock × List String),
      LocInv st → LocInv (lines.foldl (locateStep file) st) := by
  intro lines
  induction lines with
  | nil => intro st h; exact h
  | cons a rest ih =>
    intro st h
    rw [List.foldl_cons]
    exact ih _ (locateStep_inv h)

lemma locate_fold_has (file : FileTree) :
    ∀ (lines : List ChangedLine) (st : List CodeBlock × List String)
      (b : CodeBlock) (l : Nat),
      HasLine st.1 b l → HasLine ((lines.foldl (locateStep file) st)).1 b l := by
  intro lines
  induction lines with
  | nil => intro st b l h; exact h
  | cons a rest ih =>
    intro st b l h
    rw [List.foldl_cons]
    exact ih _ b l (locateStep_has h)

lemma locate_fold_establish (file : FileTree) :
    ∀ (lines : List ChangedLine) (st : List CodeBlock × List String)
      (cl : ChangedLine) (b : CodeBlock),
      LocInv st → cl ∈ lines →
      findCodeBlockAtLine file cl.lineNumber = some b →
      HasLine ((lines.foldl (locateStep file) st)).1 b cl.lineNumber := by
  intro lines
  induction lines with
  | nil => intro st cl b _ hmem; cases hmem
  | cons a rest ih =>
    intro st cl b hinv hmem hf
    rw [List.foldl_cons]
    rcases List.mem_cons.mp hmem with rfl | hmem'
    · exact locate_fold_has file rest _ b cl.lineNumber
        (locateStep_establish hinv hf)
    · exact ih _ cl b (locateStep_inv hinv) hmem' hf


/-- C6: two distinct changed lines whose located declaration has the same
`(kind, name, startLine)` identity produce exactly one `CodeBlock`: the
output never holds two blocks with the same deduplication key, and there is
a single block with that identity whose `changedLineNumbers` contains both
line numbers (unique among all recorded blocks). -/
theorem claim_C6 (file : FileTree) (changedLines : List ChangedLine)
    (cl1 cl2 : ChangedLine) (b1 b2 : CodeBlock)
    (h1 : cl1 ∈ changedLines) (h2 : cl2 ∈ changedLines)
    (ht1 : cl1.type = ChangeType.add ∨ cl1.type = ChangeType.modify)
    (ht2 : cl2.type = ChangeType.add ∨ cl2.type = ChangeType.modify)
    (_hne : cl1.lineNumber ≠ cl2.lineNumber)
    (hf1 : findCodeBlockAtLine file cl1.lineNumber = some b1)
    (hf2 : findCodeBlockAtLine file cl2.lineNumber = some b2)
    (hid : sameBlockId b1 b2) :
    ((locateAffectedBlocks file changedLines).map blockKey).Nodup
    ∧ ∃ b ∈ locateAffectedBlocks file changedLines,
        sameBlockId b b1
        ∧ cl1.lineNumber ∈ b.changedLineNumbers
        ∧ cl2.lineNumber ∈ b.changedLineNumbers
        ∧ ∀ b' ∈ locateAffectedBlocks file changedLines,
            sameBlockId b' b → b' = b := by
  have inv0 : LocInv ([], []) := ⟨fun k => by simp, by simp⟩
  have hm1 : cl1 ∈ changedLines.filter
      (fun l => l.type == ChangeType.add || l.type == ChangeType.modify) := by
    refine List.mem_filter.mpr ⟨h1, ?_⟩
    rcases ht1 with h | h <;> simp [h]
  have hm2 : cl2 ∈ changedLines.filter
      (fun l => l.type == ChangeType.add || l.type == ChangeType.modify) := by
    refine List.mem_filter.mpr ⟨h2, ?_⟩
    rcases ht2 with h | h <;> simp [h]
  have hinv := locate_fold_inv file
    (changedLines.filter (fun l => l.type == ChangeType.add || l.type == ChangeType.modify))
    ([], []) inv0
  have est1 := locate_fold_establish file _ ([], []) cl1 b1 inv0 hm1 hf1
  have est2 := locate_fold_establish file _ ([], []) cl2 b2 inv0 hm2 hf2
  obtain ⟨bb1, hmem1, hid1, hl1⟩ := est1
  obtain ⟨bb2, hmem2, hid2, hl2⟩ := est2
  have hnodup : ((locateAffectedBlocks file changedLines).map blockKey).Nodup :=
    hinv.2
  have hkey12 : blockKey bb1 = blockKey bb2 := by
    rw [blockKey_congr hid1, blockKey_congr hid2, blockKey_congr hid]
  have hbb : bb1 = bb2 :=
    List.inj_on_of_nodup_map hinv.2 hmem1 hmem2 hkey12
  refine ⟨hnodup, bb1, hmem1, hid1, hl1, ?_, ?_⟩
  · rw [hbb]
    exact hl2
  · intro b' hb' hidb'
    exact List.inj_on_of_nodup_map hinv.2 hb' hmem1 (blockKey_congr hidb')

/-- Witness file for C6: one function spanning lines 2-3. -/
def c6File : FileTree :=
  ⟨"// m\nfunction f() \x7b\n\x7d\n",
   .node { kind := .other, startPos := 0, endPos := 22 }
     [.node { kind := .functionDeclaration, name := some "f", startPos := 5,
              endPos := 21, text := "function f() \x7b\n\x7d" } []]⟩

/-- Witness for C6: lines 2 and 3 inside one function yield one block
carrying both lines. -/
theorem claim_C6_witness :
    ((locateAffectedBlocks c6File [⟨2, .add, "x"⟩, ⟨3, .add, "y"⟩]).map blockKey).Nodup
    ∧ ∃ b ∈ locateAffectedBlocks c6File [⟨2, .add, "x"⟩, ⟨3, .add, "y"⟩],
        sameBlockId b { type := .function, name := "f", startLine := 2, endLine := 3,
                        signature := "", fullCode := "function f() \x7b\n\x7d",
                        changedLineNumbers := [2] }
        ∧ 2 ∈ b.changedLineNumbers
        ∧ 3 ∈ b.changedLineNumbers
        ∧ ∀ b' ∈ locateAffectedBlocks c6File [⟨2, .add, "x"⟩, ⟨3, .add, "y"⟩],
            sameBlockId b' b → b' = b :=
  claim_C6 c6File [⟨2, .add, "x"⟩, ⟨3, .add, "y"⟩] ⟨2, .add, "x"⟩ ⟨3, .add, "y"⟩
    { type := .function, name := "f", startLine := 2, endLine := 3,
      signature := "", fullCode := "function f() \x7b\n\x7d", changedLineNumbers := [2] }
    { type := .function, name := "f", startLine := 2, endLine := 3,
      signature := "", fullCode := "function f() \x7b\n\x7d", changedLineNumbers := [3] }
    (List.mem_cons_self _ _)
    (List.mem_cons_of_mem _ (List.mem_cons_self _ _))
    (Or.inl rfl) (Or.inl rfl) (by decide) (by decide) (by decide)
    ⟨rfl, rfl, rfl⟩


mutual

/-- Spec-side definition (not the code's): a structural syntax-tree check
that the subtree contains a return statement whose returned expression is a
markup (JSX) element.  Used to compare the code's string heuristic against
the behaviour the spec describes. -/
def specHasJsxReturn (t : STree) : Bool :=
  match t with
  | .node d cs =>
    (d.kind == NodeKind.returnStatement
      && cs.any (fun c => c.data.kind == NodeKind.jsxElement))
    || specHasJsxReturnList cs

def specHasJsxReturnList : List STree → Bool
  | [] => false
  | c :: rest => specHasJsxReturn c || specHasJsxReturnList rest

end

lemma firstBlock_mem {text : String} {ln : Nat} :
    ∀ {l : List NodeData} {b : CodeBlock},
      firstBlock text ln l = some b → ∃ d ∈ l, blockOfNode text ln d = some b := by
  intro l
  induction l with
  | nil => intro b h; cases h
  | cons d rest ih =>
    intro b h
    rw [firstBlock] at h
    cases hd : blockOfNode text ln d with
    | some b0 =>
      rw [hd] at h
      rw [Option.some.injEq] at h
      subst h
      exact ⟨d, List.mem_cons_self _ _, hd⟩
    | none =>
      rw [hd] at h
      obtain ⟨d1, hd1, hb1⟩ := ih h
      exact ⟨d1, List.mem_cons_of_mem _ hd1, hb1⟩

/-- C5 (amended): the `component`-versus-`function` tag of a located block
is decided by the plain substring test `isReactComponent` on the raw node
text (the declaration text for a function, the enclosing statement text for
a variable-bound arrow), not by a structural syntax-tree check — so
markup-like text inside comments does cause the `component` tag (see the
counterexample). -/
theorem claim_C5 (file : FileTree) (lineNumber : Nat) :
    ∀ b, findCodeBlockAtLine file lineNumber = some b →
      ∃ d ∈ descendChain file.root (posOfLine file.text lineNumber),
        blockOfNode file.text lineNumber d = some b
        ∧ (b.type = BlockType.component ↔
            (d.kind = NodeKind.functionDeclaration ∧ isReactComponent d.text = true)
            ∨ (d.kind = NodeKind.variableDeclaration ∧ d.initializerIsArrow = true
                ∧ isReactComponent d.stmtText = true)) := by
  intro b hb
  rw [findCodeBlockAtLine] at hb
  split at hb
  · obtain ⟨d, hd, hbo⟩ := firstBlock_mem hb
    rw [List.mem_reverse] at hd
    refine ⟨d, hd, hbo, ?_⟩
    rw [blockOfNode] at hbo
    split at hbo
    · next hk =>
      rw [Option.some.injEq] at hbo
      subst hbo
      cases hrc : isReactComponent d.text with
      | true => simp [hk, hrc]
      | false => simp [hk, hrc]
    · next hk =>
      split at hbo
      · next harrow =>
        rw [Option.some.injEq] at hbo
        subst hbo
        cases hrc : isReactComponent d.stmtText with
        | true => simp [hk, hrc, harrow]
        | false => simp [hk, hrc]
      · cases hbo
    · next hk =>
      rw [Option.some.injEq] at hbo
      subst hbo
      simp [hk]
    · next hk =>
      rw [Option.some.injEq] at hbo
      subst hbo
      simp [hk]
    · next hk =>
      rw [Option.some.injEq] at hbo
      subst hbo
      simp [hk]
    · cases hbo
  · cases hb

/-- Counterexample file for C5: markup only inside a comment. -/
def c5FnText : String := "function f() \x7b\n  // return (<div/>)\n  return 1;\n\x7d"

def c5FnTree : STree :=
  .node { kind := .functionDeclaration, name := some "f", startPos := 0,
          endPos := 49, text := c5FnText }
    [.node { kind := .returnStatement, startPos := 38, endPos := 47,
             text := "return 1;" }
      [.node { kind := .other, startPos := 45, endPos := 46, text := "1" } []]]

def c5File : FileTree :=
  ⟨c5FnText ++ "\n", .node { kind := .other, startPos := 0, endPos := 50 } [c5FnTree]⟩

/-- Counterexample to C5 as stated: the function's only return statement
returns the literal `1` (no JSX anywhere in the tree — `specHasJsxReturn`
is false), yet the block is tagged `component` because a comment contains
`return (<div/>)`. -/
theorem claim_C5_counterexample :
    (findCodeBlockAtLine c5File 2).map (fun b => (b.type, b.name))
      = some (.component, "f")
    ∧ specHasJsxReturn c5FnTree = false
    ∧ isReactComponent c5FnText = true := by decide

/-- Witness for C5: the located block of the counterexample file, with its
tag equivalence instantiated. -/
theorem claim_C5_witness :
    ∃ d ∈ descendChain c5File.root (posOfLine c5File.text 2),
      blockOfNode c5File.text 2 d = some
        { type := .component, name := "f", startLine := 1, endLine := 4,
          signature := "", fullCode := c5FnText, changedLineNumbers := [2] }
      ∧ (({ type := .component, name := "f", startLine := 1, endLine := 4,
            signature := "", fullCode := c5FnText,
            changedLineNumbers := [2] } : CodeBlock).type = BlockType.component ↔
          (d.kind = NodeKind.functionDeclaration ∧ isReactComponent d.text = true)
          ∨ (d.kind = NodeKind.variableDeclaration ∧ d.initializerIsArrow = true
              ∧ isReactComponent d.stmtText = true)) :=
  claim_C5 c5File 2
    { type := .component, name := "f", startLine := 1, endLine := 4,
      signature := "", fullCode := c5FnText, changedLineNumbers := [2] }
    (by decide)

end ProjectAI
